import Mathlib

/-!
Verification of the gocire core: the sweep-line span partitioner
(internal/TokenInfo.go), the text extractor (getSourceFromSpan) and the
MDX document assembler (internal/MDXGenerator.go), embedded shallowly.

Machine integers: the Go code stores line and column numbers as int32 and
list lengths as int; no arithmetic in the modelled code can overflow int32
for buffers below 2^31 lines and columns, so positions are modelled as
unbounded Int and list indices as Nat.

Loops are modelled with an explicit fuel argument; the fuel passed by the
top-level entry points is proved sufficient, so the fuel-exhaustion branch
is unreachable and the definitions agree with the Go loops on all inputs.
-/

namespace Gocire

/-- A source position, line and column counted in code points.
Modelled from the spec (section 4.1 PositionOrder): the scip.Position type
of the external sourcegraph/scip dependency, ordered lexicographically by
(line, character); the repository only ever uses the sign of Compare. -/
structure Position where
  Line : Int
  Character : Int
deriving DecidableEq, Repr

/-- scip.Range: a start and end position. -/
structure Range where
  Start : Position
  End : Position
deriving DecidableEq, Repr

/-- TokenInfo from internal/TokenInfo.go. -/
structure TokenInfo where
  Symbol : String
  IsReference : Bool
  IsDefinition : Bool
  HighlightClass : String
  InlayText : List String
  Span : Range
deriving DecidableEq, Repr

/-- CommentInfo from internal/CommentAnalyzer.go: prose content plus span. -/
structure CommentInfo where
  Content : String
  Span : Range
deriving DecidableEq, Repr

instance {ε α : Type} [DecidableEq ε] [DecidableEq α] :
    DecidableEq (Except ε α) := fun a b =>
  match a, b with
  | .error e1, .error e2 =>
    if h : e1 = e2 then isTrue (by rw [h])
    else isFalse (fun hc => h (Except.error.inj hc))
  | .error _, .ok _ => isFalse (fun hc => Except.noConfusion hc)
  | .ok _, .error _ => isFalse (fun hc => Except.noConfusion hc)
  | .ok a1, .ok a2 =>
    if h : a1 = a2 then isTrue (by rw [h])
    else isFalse (fun hc => h (Except.ok.inj hc))

/-- scip.Position.Compare, modelled from the spec (section 4.1):
lexicographic comparison on (line, column); only the sign is ever used. -/
def Position.Compare (a b : Position) : Int :=
  if a.Line < b.Line then -1
  else if b.Line < a.Line then 1
  else if a.Character < b.Character then -1
  else if b.Character < a.Character then 1
  else 0

/-- Strict lexicographic order on positions (specification vocabulary). -/
def Position.klt (a b : Position) : Prop :=
  a.Line < b.Line ∨ (a.Line = b.Line ∧ a.Character < b.Character)

/-- Non-strict lexicographic order on positions. -/
def Position.kle (a b : Position) : Prop :=
  a.Line < b.Line ∨ (a.Line = b.Line ∧ a.Character ≤ b.Character)

instance (a b : Position) : Decidable (a.klt b) := by
  unfold Position.klt; exact inferInstance

instance (a b : Position) : Decidable (a.kle b) := by
  unfold Position.kle; exact inferInstance

theorem Position.compare_lt_iff (a b : Position) :
    Position.Compare a b < 0 ↔ a.klt b := by
  simp only [Position.Compare, Position.klt]
  split_ifs <;> omega

theorem Position.compare_pos_iff (a b : Position) :
    0 < Position.Compare a b ↔ b.klt a := by
  simp only [Position.Compare, Position.klt]
  split_ifs <;> omega

theorem Position.compare_eq_zero_iff (a b : Position) :
    Position.Compare a b = 0 ↔ a = b := by
  simp only [Position.Compare]
  constructor
  · intro h
    split_ifs at h <;> try omega
    cases a; cases b; simp_all; omega
  · intro h; subst h; split_ifs <;> omega

theorem Position.compare_le_iff (a b : Position) :
    Position.Compare a b ≤ 0 ↔ a.kle b := by
  simp only [Position.Compare, Position.kle]
  split_ifs <;> omega

theorem Position.compare_ge_iff (a b : Position) :
    0 ≤ Position.Compare a b ↔ b.kle a := by
  simp only [Position.Compare, Position.kle]
  split_ifs <;> omega

theorem Position.compare_self (a : Position) : Position.Compare a a = 0 := by
  simp only [Position.Compare]; split_ifs <;> omega

theorem Position.kle_refl (a : Position) : a.kle a := by
  exact Or.inr ⟨rfl, le_refl _⟩

theorem Position.kle_trans {a b c : Position} (h1 : a.kle b) (h2 : b.kle c) :
    a.kle c := by
  simp only [Position.kle] at *; omega

theorem Position.klt_of_kle_of_klt {a b c : Position} (h1 : a.kle b)
    (h2 : b.klt c) : a.klt c := by
  simp only [Position.kle, Position.klt] at *; omega

theorem Position.klt_of_klt_of_kle {a b c : Position} (h1 : a.klt b)
    (h2 : b.kle c) : a.klt c := by
  simp only [Position.kle, Position.klt] at *; omega

theorem Position.klt_trans {a b c : Position} (h1 : a.klt b) (h2 : b.klt c) :
    a.klt c := by
  simp only [Position.klt] at *; omega

theorem Position.kle_of_klt {a b : Position} (h : a.klt b) : a.kle b := by
  simp only [Position.kle, Position.klt] at *; omega

theorem Position.klt_irrefl (a : Position) : ¬ a.klt a := by
  simp only [Position.klt]; omega

theorem Position.kle_total (a b : Position) : a.kle b ∨ b.kle a := by
  simp only [Position.kle]; omega

theorem Position.not_kle_iff {a b : Position} : ¬ a.kle b ↔ b.klt a := by
  simp only [Position.kle, Position.klt]; omega

theorem Position.not_klt_iff {a b : Position} : ¬ a.klt b ↔ b.kle a := by
  simp only [Position.kle, Position.klt]; omega

theorem Position.kle_antisymm {a b : Position} (h1 : a.kle b) (h2 : b.kle a) :
    a = b := by
  have h : a.Line = b.Line ∧ a.Character = b.Character := by
    simp only [Position.kle] at h1 h2; omega
  cases a; cases b; simp_all

/-! ## The sweep-line partitioner, from internal/TokenInfo.go -/

/-- findNextEnd: the earliest ending position among all active tokens
(TokenInfo.go lines 120 to 128).  The Go code indexes element 0 and is only
called on non-empty lists; the empty case returns a dummy. -/
def findNextEnd (activeTokens : List TokenInfo) : Position :=
  match activeTokens with
  | [] => ⟨0, 0⟩
  | t :: _ =>
    activeTokens.foldl
      (fun earliest token =>
        if Position.Compare token.Span.End earliest < 0 then token.Span.End
        else earliest)
      t.Span.End

/-- findNextSplit: the next token start position or the earliest token end
position (TokenInfo.go lines 96 to 117). -/
def findNextSplit (tokens : List TokenInfo) (index : Nat)
    (activeTokens : List TokenInfo) : Except String Position :=
  if h : index < tokens.length then
    let nextPos := (tokens[index]).Span.Start
    if 0 < activeTokens.length then
      let nextEnd := findNextEnd activeTokens
      if Position.Compare nextEnd nextPos < 0 then .ok nextEnd else .ok nextPos
    else .ok nextPos
  else if 0 < activeTokens.length then
    .ok (findNextEnd activeTokens)
  else
    .error "Should not hit in findNextSplit"

/-- The activation loop of processSplitAtPosition (TokenInfo.go lines 75
to 81): walk the tokens from position index onward (given as the
remaining suffix), appending every token whose start equals pos and
advancing the index, stopping at the first that does not. -/
def activateGo (pos : Position) : List TokenInfo → Nat → List TokenInfo →
    Nat × List TokenInfo
  | [], index, acc => (index, acc)
  | t :: rest, index, acc =>
    if Position.Compare t.Span.Start pos = 0 then
      activateGo pos rest (index + 1) (acc ++ [t])
    else (index, acc)

/-- processSplitAtPosition (TokenInfo.go lines 71 to 93): activate tokens
starting at pos, then remove, stably, every active token ending at pos.
The Go function always returns a nil error, so it is modelled as pure. -/
def processSplitAtPosition (pos : Position) (tokens : List TokenInfo)
    (index : Nat) (activeTokens : List TokenInfo) : Nat × List TokenInfo :=
  let a := activateGo pos (tokens.drop index) index activeTokens
  (a.1, a.2.filter (fun token => decide (Position.Compare token.Span.End pos ≠ 0)))

/-- createSegment (TokenInfo.go lines 131 to 153): merge the active tokens
into one segment over [start, endP).  The Go loop mutates a zero-valued
TokenInfo; it is modelled as a fold starting from the zero value. -/
def createSegment (start : Position) (endP : Position)
    (activeTokens : List TokenInfo) : Option TokenInfo :=
  if activeTokens.length = 0 then none
  else
    let r := activeTokens.foldl
      (fun (result : TokenInfo) (token : TokenInfo) =>
        ({ Symbol := if token.Symbol ≠ "" then token.Symbol else result.Symbol
           HighlightClass :=
             if token.HighlightClass ≠ "" then token.HighlightClass
             else result.HighlightClass
           InlayText :=
             if 0 < token.InlayText.length then result.InlayText ++ token.InlayText
             else result.InlayText
           IsReference := result.IsReference || token.IsReference
           IsDefinition := result.IsDefinition || token.IsDefinition
           Span := result.Span } : TokenInfo))
      ({ Symbol := "", IsReference := false, IsDefinition := false,
         HighlightClass := "", InlayText := [], Span := ⟨⟨0, 0⟩, ⟨0, 0⟩⟩ } : TokenInfo)
    some { r with Span := ⟨start, endP⟩ }

/-- The main loop of MergeSplitTokens (TokenInfo.go lines 41 to 66), with
fuel.  The fuel branch returns a distinctive error; mergeFuel is proved
sufficient below, so the branch is unreachable. -/
def mergeLoop (tokens : List TokenInfo) : Nat → Nat → List TokenInfo →
    Position → List TokenInfo → Except String (List TokenInfo)
  | 0, _, _, _, _ => .error "model fuel exhausted"
  | fuel + 1, index, activeTokens, curPos, result =>
    if tokens.length ≤ index ∧ activeTokens = [] then .ok result
    else
      match findNextSplit tokens index activeTokens with
      | .error e => .error e
      | .ok nextSplit =>
        mergeLoop tokens fuel
          (processSplitAtPosition nextSplit tokens index activeTokens).1
          (processSplitAtPosition nextSplit tokens index activeTokens).2
          nextSplit
          (if Position.Compare curPos nextSplit < 0 then
            match createSegment curPos nextSplit activeTokens with
            | some segment => result ++ [segment]
            | none => result
          else result)

/-- Fuel sufficient for mergeLoop from the initial state (proved below). -/
def mergeFuel (tokens : List TokenInfo) : Nat := 2 * tokens.length + 1

/-- MergeSplitTokens (TokenInfo.go lines 33 to 68): merge overlapping
tokens and split them at intersection points to eliminate overlaps. -/
def MergeSplitTokens (tokens : List TokenInfo) : Except String (List TokenInfo) :=
  match tokens with
  | [] => .ok []
  | t :: _ => mergeLoop tokens (mergeFuel tokens) 0 [] t.Span.Start []

/-! ## Characterization lemmas for the partitioner -/

/-- The tokens from position index onward that start exactly at pos, up to
the first that does not (the tokens appended by the activation loop). -/
def startsAt (tokens : List TokenInfo) (pos : Position) (index : Nat) :
    List TokenInfo :=
  (tokens.drop index).takeWhile
    (fun t => decide (Position.Compare t.Span.Start pos = 0))

theorem activateGo_spec (pos : Position) :
    ∀ (l : List TokenInfo) (index : Nat) (acc : List TokenInfo),
      activateGo pos l index acc =
        (index + (l.takeWhile
            (fun t => decide (Position.Compare t.Span.Start pos = 0))).length,
         acc ++ l.takeWhile
            (fun t => decide (Position.Compare t.Span.Start pos = 0))) := by
  intro l
  induction l with
  | nil => intro index acc; simp [activateGo]
  | cons t rest ih =>
    intro index acc
    rw [activateGo, List.takeWhile_cons]
    by_cases hp : Position.Compare t.Span.Start pos = 0
    · rw [if_pos hp, ih (index + 1) (acc ++ [t])]
      simp [hp]
      omega
    · rw [if_neg hp]
      simp [hp]

theorem processSplitAtPosition_spec (pos : Position) (tokens : List TokenInfo)
    (index : Nat) (active : List TokenInfo) :
    processSplitAtPosition pos tokens index active =
      (index + (startsAt tokens pos index).length,
       (active ++ startsAt tokens pos index).filter
         (fun t => decide (Position.Compare t.Span.End pos ≠ 0))) := by
  unfold processSplitAtPosition startsAt
  rw [activateGo_spec pos (tokens.drop index) index active]

/-- The step function folded by findNextEnd. -/
theorem findNextEnd_foldl_mem (l : List TokenInfo) :
    ∀ e : Position,
      (l.foldl (fun earliest token =>
          if Position.Compare token.Span.End earliest < 0 then token.Span.End
          else earliest) e = e) ∨
      ∃ t ∈ l, l.foldl (fun earliest token =>
          if Position.Compare token.Span.End earliest < 0 then token.Span.End
          else earliest) e = t.Span.End := by
  induction l with
  | nil => intro e; left; rfl
  | cons x xs ih =>
    intro e
    simp only [List.foldl_cons]
    by_cases h : Position.Compare x.Span.End e < 0
    · simp only [if_pos h]
      rcases ih x.Span.End with h2 | ⟨t, ht, h2⟩
      · right; exact ⟨x, by simp, h2⟩
      · right; exact ⟨t, by simp [ht], h2⟩
    · simp only [if_neg h]
      rcases ih e with h2 | ⟨t, ht, h2⟩
      · left; exact h2
      · right; exact ⟨t, by simp [ht], h2⟩

theorem findNextEnd_foldl_le (l : List TokenInfo) :
    ∀ e : Position,
      (l.foldl (fun earliest token =>
          if Position.Compare token.Span.End earliest < 0 then token.Span.End
          else earliest) e).kle e ∧
      ∀ t ∈ l, (l.foldl (fun earliest token =>
          if Position.Compare token.Span.End earliest < 0 then token.Span.End
          else earliest) e).kle t.Span.End := by
  induction l with
  | nil => intro e; exact ⟨Position.kle_refl e, by simp⟩
  | cons x xs ih =>
    intro e
    simp only [List.foldl_cons]
    by_cases h : Position.Compare x.Span.End e < 0
    · simp only [if_pos h]
      have hxe : x.Span.End.kle e :=
        Position.kle_of_klt ((Position.compare_lt_iff _ _).mp h)
      refine ⟨Position.kle_trans (ih x.Span.End).1 hxe, ?_⟩
      intro t ht
      rcases List.mem_cons.mp ht with heq | ht
      · subst heq; exact (ih _).1
      · exact (ih _).2 t ht
    · simp only [if_neg h]
      have hex : e.kle x.Span.End := by
        rw [← Position.compare_ge_iff]; omega
      refine ⟨(ih e).1, ?_⟩
      intro t ht
      rcases List.mem_cons.mp ht with heq | ht
      · subst heq; exact Position.kle_trans (ih e).1 hex
      · exact (ih e).2 t ht

theorem findNextEnd_mem (l : List TokenInfo) (h : l ≠ []) :
    ∃ t ∈ l, t.Span.End = findNextEnd l := by
  match l with
  | t :: ts =>
    unfold findNextEnd
    rcases findNextEnd_foldl_mem (t :: ts) t.Span.End with h2 | ⟨u, hu, h2⟩
    · exact ⟨t, by simp, h2.symm⟩
    · exact ⟨u, hu, h2.symm⟩

theorem findNextEnd_le (l : List TokenInfo) (h : l ≠ []) :
    ∀ t ∈ l, (findNextEnd l).kle t.Span.End := by
  match l with
  | t :: ts =>
    unfold findNextEnd
    exact (findNextEnd_foldl_le (t :: ts) t.Span.End).2

/-- findNextSplit succeeds whenever the loop has not terminated. -/
theorem findNextSplit_ok (tokens : List TokenInfo) (index : Nat)
    (active : List TokenInfo) (h : ¬(tokens.length ≤ index ∧ active = [])) :
    ∃ ns, findNextSplit tokens index active = .ok ns := by
  cases hfs : findNextSplit tokens index active with
  | ok v => exact ⟨v, rfl⟩
  | error e =>
    exfalso
    unfold findNextSplit at hfs
    by_cases hi : index < tokens.length
    · simp only [dif_pos hi] at hfs
      by_cases ha : 0 < active.length
      · simp only [if_pos ha] at hfs
        by_cases hc : Position.Compare (findNextEnd active)
            (tokens[index]).Span.Start < 0
        · simp [hc] at hfs
        · simp [hc] at hfs
      · simp [ha] at hfs
    · by_cases ha : 0 < active.length
      · simp only [dif_neg hi, if_pos ha] at hfs
        exact absurd hfs (by simp)
      · have hz : active.length = 0 := by omega
        exact h ⟨by omega, List.length_eq_zero.mp hz⟩

theorem findNextSplit_cases (tokens : List TokenInfo) (index : Nat)
    (active : List TokenInfo) (ns : Position)
    (hok : findNextSplit tokens index active = .ok ns) :
    (∃ h : index < tokens.length, ns = (tokens[index]).Span.Start) ∨
      (active ≠ [] ∧ ns = findNextEnd active) := by
  unfold findNextSplit at hok
  by_cases hi : index < tokens.length
  · simp only [dif_pos hi] at hok
    by_cases ha : 0 < active.length
    · simp only [if_pos ha] at hok
      by_cases hc : Position.Compare (findNextEnd active)
          (tokens[index]).Span.Start < 0
      · simp only [if_pos hc, Except.ok.injEq] at hok
        exact Or.inr ⟨List.length_pos.mp ha, hok.symm⟩
      · simp only [if_neg hc, Except.ok.injEq] at hok
        exact Or.inl ⟨hi, hok.symm⟩
    · simp only [if_neg ha, Except.ok.injEq] at hok
      exact Or.inl ⟨hi, hok.symm⟩
  · simp only [dif_neg hi] at hok
    by_cases ha : 0 < active.length
    · simp only [if_pos ha, Except.ok.injEq] at hok
      exact Or.inr ⟨List.length_pos.mp ha, hok.symm⟩
    · simp only [if_neg ha] at hok
      exact absurd hok (by simp)

theorem findNextSplit_le_start (tokens : List TokenInfo) (index : Nat)
    (active : List TokenInfo) (ns : Position)
    (hok : findNextSplit tokens index active = .ok ns)
    (hi : index < tokens.length) : ns.kle (tokens[index]).Span.Start := by
  unfold findNextSplit at hok
  simp only [dif_pos hi] at hok
  by_cases ha : 0 < active.length
  · simp only [if_pos ha] at hok
    by_cases hc : Position.Compare (findNextEnd active)
        (tokens[index]).Span.Start < 0
    · simp only [if_pos hc, Except.ok.injEq] at hok
      subst hok
      exact Position.kle_of_klt ((Position.compare_lt_iff _ _).mp hc)
    · simp only [if_neg hc, Except.ok.injEq] at hok
      subst hok; exact Position.kle_refl _
  · simp only [if_neg ha, Except.ok.injEq] at hok
    subst hok; exact Position.kle_refl _

theorem findNextSplit_le_end (tokens : List TokenInfo) (index : Nat)
    (active : List TokenInfo) (ns : Position)
    (hok : findNextSplit tokens index active = .ok ns)
    (ha : active ≠ []) : ∀ t ∈ active, ns.kle t.Span.End := by
  have hkey : ns.kle (findNextEnd active) := by
    unfold findNextSplit at hok
    by_cases hi : index < tokens.length
    · simp only [dif_pos hi] at hok
      have ha2 : 0 < active.length := List.length_pos.mpr ha
      simp only [if_pos ha2] at hok
      by_cases hc : Position.Compare (findNextEnd active)
          (tokens[index]).Span.Start < 0
      · simp only [if_pos hc, Except.ok.injEq] at hok
        subst hok; exact Position.kle_refl _
      · simp only [if_neg hc, Except.ok.injEq] at hok
        subst hok
        rw [← Position.compare_ge_iff]; omega
    · have ha2 : 0 < active.length := List.length_pos.mpr ha
      simp only [dif_neg hi, if_pos ha2, Except.ok.injEq] at hok
      subst hok; exact Position.kle_refl _
  intro t ht
  exact Position.kle_trans hkey (findNextEnd_le active ha t ht)

theorem length_filter_lt_of_exists {α : Type} (p : α → Bool) :
    ∀ l : List α, (∃ a ∈ l, p a = false) → (l.filter p).length < l.length := by
  intro l
  induction l with
  | nil => rintro ⟨a, ha, _⟩; cases ha
  | cons x xs ih =>
    rintro ⟨a, ha, hpa⟩
    have hle := List.length_filter_le p xs
    rcases List.mem_cons.mp ha with heq | ha
    · subst heq
      simp [List.filter_cons, hpa]
      omega
    · have hlt := ih ⟨a, ha, hpa⟩
      by_cases hx : p x = true
      · simp [List.filter_cons, hx]
        omega
      · simp [List.filter_cons, hx]
        omega

theorem startsAt_length_le (tokens : List TokenInfo) (pos : Position)
    (index : Nat) : (startsAt tokens pos index).length ≤ tokens.length - index := by
  have h1 : (startsAt tokens pos index).length ≤ (tokens.drop index).length :=
    (List.takeWhile_sublist _).length_le
  simpa using h1

theorem startsAt_pos (tokens : List TokenInfo) (index : Nat)
    (hi : index < tokens.length) :
    1 ≤ (startsAt tokens ((tokens[index]).Span.Start) index).length := by
  unfold startsAt
  rw [List.drop_eq_getElem_cons hi, List.takeWhile_cons]
  simp [Position.compare_self]

/-- Each loop iteration strictly decreases 2 * (remaining tokens) + active
set size: a start event activates at least one token, an end event removes
at least one active token. -/
theorem merge_measure_lt (tokens : List TokenInfo) (index : Nat)
    (active : List TokenInfo) (ns : Position)
    (hok : findNextSplit tokens index active = .ok ns) :
    2 * (tokens.length - (processSplitAtPosition ns tokens index active).1) +
        (processSplitAtPosition ns tokens index active).2.length <
      2 * (tokens.length - index) + active.length := by
  rw [processSplitAtPosition_spec]
  dsimp only
  have hkle := startsAt_length_le tokens ns index
  rcases findNextSplit_cases tokens index active ns hok with ⟨hi, hns⟩ | ⟨hne, hns⟩
  · subst hns
    have h1 := startsAt_pos tokens index hi
    have h2 : ((active ++ startsAt tokens ((tokens[index]).Span.Start) index).filter
        (fun t => decide (Position.Compare t.Span.End ((tokens[index]).Span.Start) ≠ 0))).length ≤
        active.length + (startsAt tokens ((tokens[index]).Span.Start) index).length := by
      have := List.length_filter_le
        (fun t => decide (Position.Compare t.Span.End ((tokens[index]).Span.Start) ≠ 0))
        (active ++ startsAt tokens ((tokens[index]).Span.Start) index)
      simpa using this
    omega
  · subst hns
    obtain ⟨t, htmem, htend⟩ := findNextEnd_mem active hne
    have hwit : t ∈ active ++ startsAt tokens (findNextEnd active) index := by
      exact List.mem_append_left _ htmem
    have hfalse : (fun u => decide (Position.Compare u.Span.End (findNextEnd active) ≠ 0)) t = false := by
      simp [htend, Position.compare_self]
    have h2 := length_filter_lt_of_exists
      (fun u => decide (Position.Compare u.Span.End (findNextEnd active) ≠ 0))
      (active ++ startsAt tokens (findNextEnd active) index) ⟨t, hwit, hfalse⟩
    simp only [List.length_append] at h2
    omega

/-- The fuel given to mergeLoop is sufficient: with the measure below the
fuel, the loop always returns ok. -/
theorem mergeLoop_ok (tokens : List TokenInfo) :
    ∀ (fuel index : Nat) (active : List TokenInfo) (curPos : Position)
      (result : List TokenInfo),
      2 * (tokens.length - index) + active.length < fuel →
      ∃ r, mergeLoop tokens fuel index active curPos result = .ok r := by
  intro fuel
  induction fuel with
  | zero => intro index active curPos result hm; omega
  | succ n ih =>
    intro index active curPos result hm
    rw [mergeLoop]
    by_cases hstop : tokens.length ≤ index ∧ active = []
    · rw [if_pos hstop]
      exact ⟨result, rfl⟩
    · rw [if_neg hstop]
      obtain ⟨ns, hns⟩ := findNextSplit_ok tokens index active hstop
      rw [hns]
      have hlt := merge_measure_lt tokens index active ns hns
      exact ih _ _ ns _ (by omega)

/-- Claim C10: MergeSplitTokens returns a nil error for every input token
list (sorted or not): the error branch of findNextSplit is unreachable
because the loop exits before reaching it, and the model fuel is
sufficient for every input. -/
theorem MergeSplitTokens_never_errors (tokens : List TokenInfo) :
    ∃ result, MergeSplitTokens tokens = .ok result := by
  match tokens with
  | [] => exact ⟨[], rfl⟩
  | t :: ts =>
    exact mergeLoop_ok (t :: ts) (mergeFuel (t :: ts)) 0 [] t.Span.Start []
      (by unfold mergeFuel; simp)

/-! ## Specification vocabulary: coverage, sortedness, merged attributes -/

/-- A position lies inside a span: start ≤ p < end. -/
def Range.covers (r : Range) (p : Position) : Prop :=
  r.Start.kle p ∧ p.klt r.End

instance (r : Range) (p : Position) : Decidable (r.covers p) := by
  unfold Range.covers; exact inferInstance

/-- Sorted by start ascending, then end ascending: the postcondition of
SortTokens (TokenInfo.go lines 21 to 30). -/
def SortedTokens (tokens : List TokenInfo) : Prop :=
  tokens.Pairwise (fun a b =>
    a.Span.Start.klt b.Span.Start ∨
    (a.Span.Start = b.Span.Start ∧ a.Span.End.kle b.Span.End))

instance (tokens : List TokenInfo) : Decidable (SortedTokens tokens) := by
  unfold SortedTokens; infer_instance

/-- Every span is well formed: start ≤ end. -/
def WFSpans (tokens : List TokenInfo) : Prop :=
  ∀ t ∈ tokens, t.Span.Start.kle t.Span.End

instance (tokens : List TokenInfo) : Decidable (WFSpans tokens) := by
  unfold WFSpans; infer_instance

/-- Spec section 4.2 merge rule: isDefinition is the OR over the set. -/
def mergedIsDef (l : List TokenInfo) : Bool := l.any (fun t => t.IsDefinition)

/-- Spec section 4.2 merge rule: isReference is the OR over the set. -/
def mergedIsRef (l : List TokenInfo) : Bool := l.any (fun t => t.IsReference)

/-- Spec section 4.2 merge rule: docText is the concatenation, in
activation order, of the docText lists (appending an empty list is a
no-op, so the non-empty restriction in the spec changes nothing). -/
def mergedInlay (l : List TokenInfo) : List String :=
  (l.map (fun t => t.InlayText)).flatten

/-- Spec section 4.2 merge rule: symbolID from the last element in
iteration order with a non-empty symbolID. -/
def mergedSymbol (l : List TokenInfo) : String :=
  l.foldl (fun acc t => if t.Symbol ≠ "" then t.Symbol else acc) ""

/-- Spec section 4.2 merge rule: highlightClass, last non-empty wins. -/
def mergedHighlight (l : List TokenInfo) : String :=
  l.foldl (fun acc t => if t.HighlightClass ≠ "" then t.HighlightClass else acc) ""

theorem createSegment_fold (l : List TokenInfo) :
    ∀ r : TokenInfo,
      l.foldl
        (fun (result : TokenInfo) (token : TokenInfo) =>
          ({ Symbol := if token.Symbol ≠ "" then token.Symbol else result.Symbol
             HighlightClass :=
               if token.HighlightClass ≠ "" then token.HighlightClass
               else result.HighlightClass
             InlayText :=
               if 0 < token.InlayText.length then result.InlayText ++ token.InlayText
               else result.InlayText
             IsReference := result.IsReference || token.IsReference
             IsDefinition := result.IsDefinition || token.IsDefinition
             Span := result.Span } : TokenInfo)) r =
      { Symbol := l.foldl (fun acc t => if t.Symbol ≠ "" then t.Symbol else acc) r.Symbol
        HighlightClass :=
          l.foldl (fun acc t => if t.HighlightClass ≠ "" then t.HighlightClass else acc)
            r.HighlightClass
        InlayText := r.InlayText ++ mergedInlay l
        IsReference := r.IsReference || mergedIsRef l
        IsDefinition := r.IsDefinition || mergedIsDef l
        Span := r.Span } := by
  induction l with
  | nil =>
    intro r
    simp [mergedInlay, mergedIsRef, mergedIsDef]
  | cons x xs ih =>
    intro r
    simp only [List.foldl_cons]
    rw [ih]
    have hinlay : (if 0 < x.InlayText.length then r.InlayText ++ x.InlayText
        else r.InlayText) = r.InlayText ++ x.InlayText := by
      by_cases h : 0 < x.InlayText.length
      · simp [h]
      · have : x.InlayText = [] := by
          cases hx : x.InlayText with
          | nil => rfl
          | cons a as => rw [hx] at h; simp at h
        simp [h, this]
    dsimp only
    simp only [mergedInlay, mergedIsRef, mergedIsDef, List.map_cons,
      List.flatten_cons, List.any_cons]
    rw [hinlay]
    simp [Bool.or_assoc, List.append_assoc]

/-- createSegment on a non-empty active list computes exactly the merged
attributes of spec section 4.2 over the list in order. -/
theorem createSegment_spec (s e : Position) (l : List TokenInfo) (h : l ≠ []) :
    createSegment s e l = some
      { Symbol := mergedSymbol l
        IsReference := mergedIsRef l
        IsDefinition := mergedIsDef l
        HighlightClass := mergedHighlight l
        InlayText := mergedInlay l
        Span := ⟨s, e⟩ } := by
  unfold createSegment
  have hlen : ¬ l.length = 0 := by
    intro hz; exact h (List.length_eq_zero.mp hz)
  rw [if_neg hlen]
  rw [createSegment_fold]
  simp [mergedSymbol, mergedHighlight]

/-! ## Helper lemmas for the sweep invariant -/

theorem Position.klt_of_kle_of_ne {a b : Position} (h1 : a.kle b) (h2 : a ≠ b) :
    a.klt b := by
  by_contra hn
  exact h2 (Position.kle_antisymm h1 (Position.not_klt_iff.mp hn))

theorem Position.ne_of_klt {a b : Position} (h : a.klt b) : a ≠ b := by
  rintro rfl
  exact Position.klt_irrefl _ h

theorem takeWhile_eq_take_len {α : Type} (p : α → Bool) (l : List α) :
    l.takeWhile p = l.take (l.takeWhile p).length := by
  induction l with
  | nil => rfl
  | cons x xs ih =>
    rw [List.takeWhile_cons]
    by_cases h : p x = true
    · simp only [if_pos h, List.length_cons, List.take_succ_cons]
      rw [← ih]
    · simp [if_neg h]

theorem mem_startsAt {tokens : List TokenInfo} {pos : Position} {index : Nat}
    {t : TokenInfo} (h : t ∈ startsAt tokens pos index) :
    t.Span.Start = pos ∧ t ∈ tokens.drop index := by
  refine ⟨?_, List.takeWhile_subset _ h⟩
  have hp := List.mem_takeWhile_imp h
  have := of_decide_eq_true hp
  exact (Position.compare_eq_zero_iff _ _).mp this

theorem startsAt_take (tokens : List TokenInfo) (pos : Position) (index : Nat) :
    startsAt tokens pos index =
      (tokens.drop index).take (startsAt tokens pos index).length :=
  takeWhile_eq_take_len _ _

theorem getElem_mem_drop (tokens : List TokenInfo) (index : Nat)
    (hi : index < tokens.length) : tokens[index] ∈ tokens.drop index := by
  rw [List.drop_eq_getElem_cons hi]
  exact List.mem_cons_self _ _

theorem sorted_start_kle {tokens : List TokenInfo} (hsort : SortedTokens tokens)
    {index : Nat} (hi : index < tokens.length) :
    ∀ t ∈ tokens.drop index, (tokens[index]).Span.Start.kle t.Span.Start := by
  have hsub : (tokens.drop index).Pairwise (fun a b =>
      a.Span.Start.klt b.Span.Start ∨
      (a.Span.Start = b.Span.Start ∧ a.Span.End.kle b.Span.End)) :=
    hsort.sublist (List.drop_sublist _ _)
  rw [List.drop_eq_getElem_cons hi] at hsub
  rw [List.pairwise_cons] at hsub
  intro t ht
  rw [List.drop_eq_getElem_cons hi] at ht
  rcases List.mem_cons.mp ht with heq | ht
  · subst heq; exact Position.kle_refl _
  · rcases hsub.1 t ht with hlt | ⟨heq, _⟩
    · exact Position.kle_of_klt hlt
    · rw [heq]; exact Position.kle_refl _

/-- The pointwise annotation fidelity property of a segment at a covered
position (spec section 8, union fidelity): each field of the segment is
the corresponding spec merge of the tokens whose span covers p, in input
list order. -/
def SegOK (tokens : List TokenInfo) (s : TokenInfo) (p : Position) : Prop :=
  s.IsDefinition =
      mergedIsDef (tokens.filter (fun t => decide (t.Span.covers p))) ∧
  s.IsReference =
      mergedIsRef (tokens.filter (fun t => decide (t.Span.covers p))) ∧
  s.InlayText =
      mergedInlay (tokens.filter (fun t => decide (t.Span.covers p))) ∧
  s.Symbol =
      mergedSymbol (tokens.filter (fun t => decide (t.Span.covers p))) ∧
  s.HighlightClass =
      mergedHighlight (tokens.filter (fun t => decide (t.Span.covers p)))

instance (tokens : List TokenInfo) (s : TokenInfo) (p : Position) :
    Decidable (SegOK tokens s p) := by
  unfold SegOK; infer_instance

/-- Master invariant of the sweep loop, for sorted well-formed input: the
active set is exactly the stable filter of the activated tokens still
covering the cursor; pending tokens start at or after the cursor;
emitted segments are non-degenerate, pairwise non-overlapping, cover
exactly the covered positions below the cursor, and carry the merged
attributes of the tokens covering each of their positions. -/
theorem mergeLoop_master (tokens : List TokenInfo)
    (hsort : SortedTokens tokens) (hwf : WFSpans tokens) :
    ∀ (fuel index : Nat) (active : List TokenInfo) (curPos : Position)
      (result : List TokenInfo),
      2 * (tokens.length - index) + active.length < fuel →
      index ≤ tokens.length →
      active = (tokens.take index).filter (fun t => decide (curPos.klt t.Span.End)) →
      (∀ t ∈ tokens.drop index, curPos.kle t.Span.Start) →
      (∀ t ∈ tokens.take index, t.Span.Start.kle curPos) →
      (∀ s ∈ result, s.Span.Start.klt s.Span.End) →
      (∀ s ∈ result, s.Span.End.kle curPos) →
      result.Pairwise (fun a b => a.Span.End.kle b.Span.Start) →
      (∀ p : Position, p.klt curPos →
        ((∃ s ∈ result, s.Span.covers p) ↔ (∃ t ∈ tokens, t.Span.covers p))) →
      (∀ s ∈ result, ∀ p : Position, s.Span.covers p → SegOK tokens s p) →
      ∃ r, mergeLoop tokens fuel index active curPos result = .ok r ∧
        (∀ s ∈ r, s.Span.Start.klt s.Span.End) ∧
        r.Pairwise (fun a b => a.Span.End.kle b.Span.Start) ∧
        (∀ p : Position,
          ((∃ s ∈ r, s.Span.covers p) ↔ (∃ t ∈ tokens, t.Span.covers p))) ∧
        (∀ s ∈ r, ∀ p : Position, s.Span.covers p → SegOK tokens s p) := by
  intro fuel
  induction fuel with
  | zero =>
    intro index active curPos result hfuel
    omega
  | succ n ih =>
    intro index active curPos result hfuel hidx hact hpend htaken hres1 hresb
      hrespw hcov hfid
    rw [mergeLoop]
    by_cases hstop : tokens.length ≤ index ∧ active = []
    · rw [if_pos hstop]
      refine ⟨result, rfl, hres1, hrespw, ?_, hfid⟩
      intro p
      by_cases hp : p.klt curPos
      · exact hcov p hp
      · have hcp : curPos.kle p := Position.not_klt_iff.mp hp
        constructor
        · rintro ⟨s, hs, hcs⟩
          exact absurd (Position.klt_of_klt_of_kle hcs.2
            (Position.kle_trans (hresb s hs) hcp)) (Position.klt_irrefl p)
        · rintro ⟨t, ht, hct⟩
          have htake : tokens.take index = tokens := List.take_of_length_le hstop.1
          have hmem : t ∈ tokens.take index := by rw [htake]; exact ht
          have hfil : (tokens.take index).filter
              (fun t => decide (curPos.klt t.Span.End)) = [] := by
            rw [← hact]; exact hstop.2
          have hnot := List.filter_eq_nil_iff.mp hfil t hmem
          have hend : t.Span.End.kle curPos := by
            rw [← Position.not_klt_iff]
            intro hk
            exact hnot (decide_eq_true hk)
          exact absurd (Position.klt_of_klt_of_kle hct.2
            (Position.kle_trans hend hcp)) (Position.klt_irrefl p)
    · rw [if_neg hstop]
      obtain ⟨ns, hns⟩ := findNextSplit_ok tokens index active hstop
      rw [hns]
      dsimp only
      -- basic facts about the event position ns
      have hnsend : ∀ t ∈ active, ns.kle t.Span.End := by
        intro t ht
        have hne : active ≠ [] := by
          intro hz; rw [hz] at ht; cases ht
        exact findNextSplit_le_end tokens index active ns hns hne t ht
      have hactmem : ∀ t ∈ active,
          t ∈ tokens.take index ∧ curPos.klt t.Span.End := by
        intro t ht
        rw [hact] at ht
        have := List.mem_filter.mp ht
        exact ⟨this.1, of_decide_eq_true this.2⟩
      have hcurns : curPos.kle ns := by
        rcases findNextSplit_cases tokens index active ns hns with ⟨hi, heq⟩ |
          ⟨hne, heq⟩
        · rw [heq]
          exact hpend _ (getElem_mem_drop tokens index hi)
        · obtain ⟨t, htmem, htend⟩ := findNextEnd_mem active hne
          have := (hactmem t htmem).2
          rw [heq, ← htend]
          exact Position.kle_of_klt this
      have hpendns : ∀ t ∈ tokens.drop index, ns.kle t.Span.Start := by
        by_cases hi : index < tokens.length
        · intro t ht
          exact Position.kle_trans
            (findNextSplit_le_start tokens index active ns hns hi)
            (sorted_start_kle hsort hi t ht)
        · intro t ht
          rw [List.drop_eq_nil_of_le (by omega)] at ht
          cases ht
      -- the activation block
      have hAstart : ∀ t ∈ startsAt tokens ns index, t.Span.Start = ns :=
        fun t ht => (mem_startsAt ht).1
      have hAdrop : ∀ t ∈ startsAt tokens ns index, t ∈ tokens.drop index :=
        fun t ht => (mem_startsAt ht).2
      have hAtokens : ∀ t ∈ startsAt tokens ns index, t ∈ tokens :=
        fun t ht => List.drop_subset _ _ (hAdrop t ht)
      have hklen := startsAt_length_le tokens ns index
      have hknew : index + (startsAt tokens ns index).length ≤ tokens.length := by
        omega
      have htakeadd : tokens.take (index + (startsAt tokens ns index).length) =
          tokens.take index ++ startsAt tokens ns index := by
        rw [List.take_add]
        rw [← startsAt_take]
      -- the new active set in invariant form
      have hactive2 : (active ++ startsAt tokens ns index).filter
            (fun t => decide (Position.Compare t.Span.End ns ≠ 0)) =
          (tokens.take (index + (startsAt tokens ns index).length)).filter
            (fun t => decide (ns.klt t.Span.End)) := by
        have hstep1 : (active ++ startsAt tokens ns index).filter
              (fun t => decide (Position.Compare t.Span.End ns ≠ 0)) =
            (active ++ startsAt tokens ns index).filter
              (fun t => decide (t.Span.End ≠ ns)) :=
          List.filter_congr (fun t _ => decide_eq_decide.mpr
            (not_congr (Position.compare_eq_zero_iff _ _)))
        rw [hstep1, htakeadd, List.filter_append, List.filter_append]
        congr 1
        · rw [hact, List.filter_filter]
          refine List.filter_congr ?_
          intro t htmem
          rw [← Bool.decide_and]
          apply decide_eq_decide.mpr
          constructor
          · rintro ⟨hne2, hck⟩
            have htact : t ∈ active := by
              rw [hact]
              exact List.mem_filter.mpr ⟨htmem, decide_eq_true hck⟩
            exact Position.klt_of_kle_of_ne (hnsend t htact)
              (fun heq => hne2 heq.symm)
          · intro hk
            exact ⟨(Position.ne_of_klt hk).symm,
              Position.klt_of_kle_of_klt hcurns hk⟩
        · refine List.filter_congr ?_
          intro t htmem
          apply decide_eq_decide.mpr
          have hst := hAstart t htmem
          have hwft := hwf t (hAtokens t htmem)
          rw [hst] at hwft
          constructor
          · intro hne2
            exact Position.klt_of_kle_of_ne hwft (fun heq => hne2 heq.symm)
          · intro hk
            exact (Position.ne_of_klt hk).symm
      -- the measure decreases
      have hlt := merge_measure_lt tokens index active ns hns
      rw [processSplitAtPosition_spec] at hlt
      dsimp only at hlt
      -- pending and taken facts for the next state
      have hdropsub : tokens.drop (index + (startsAt tokens ns index).length) ⊆
          tokens.drop index := by
        rw [← List.drop_drop]
        exact List.drop_subset _ _
      have hpend2 : ∀ t ∈ tokens.drop (index + (startsAt tokens ns index).length),
          ns.kle t.Span.Start := fun t ht => hpendns t (hdropsub ht)
      have htaken2 : ∀ t ∈ tokens.take (index + (startsAt tokens ns index).length),
          t.Span.Start.kle ns := by
        intro t ht
        rw [htakeadd] at ht
        rcases List.mem_append.mp ht with ht | ht
        · exact Position.kle_trans (htaken t ht) hcurns
        · rw [hAstart t ht]
          exact Position.kle_refl _
      -- rewrite the recursive call into invariant form
      rw [processSplitAtPosition_spec]
      dsimp only
      rw [hactive2]
      rw [hactive2] at hlt
      by_cases hemit : Position.Compare curPos ns < 0
      · have hcklt : curPos.klt ns := (Position.compare_lt_iff _ _).mp hemit
        rw [if_pos hemit]
        by_cases hAct : active = []
        · have hcs : createSegment curPos ns active = none := by
            rw [hAct]; rfl
          rw [hcs]
          refine ih _ _ ns result (by omega) hknew rfl hpend2 htaken2 hres1
            ?_ hrespw ?_ hfid
          · exact fun s hs =>
              Position.kle_trans (hresb s hs) (Position.kle_of_klt hcklt)
          · intro p hp
            by_cases hpc : p.klt curPos
            · exact hcov p hpc
            · have hcp : curPos.kle p := Position.not_klt_iff.mp hpc
              constructor
              · rintro ⟨s, hs, hcs2⟩
                exact absurd (Position.klt_of_klt_of_kle hcs2.2
                  (Position.kle_trans (hresb s hs) hcp)) (Position.klt_irrefl p)
              · rintro ⟨t, ht, hct⟩
                rw [← List.take_append_drop index tokens] at ht
                rcases List.mem_append.mp ht with ht | ht
                · by_cases hck : curPos.klt t.Span.End
                  · have : t ∈ active := by
                      rw [hact]
                      exact List.mem_filter.mpr ⟨ht, decide_eq_true hck⟩
                    rw [hAct] at this
                    cases this
                  · have hend : t.Span.End.kle curPos := Position.not_klt_iff.mp hck
                    exact absurd (Position.klt_of_klt_of_kle hct.2
                      (Position.kle_trans hend hcp)) (Position.klt_irrefl p)
                · exact absurd (Position.klt_of_klt_of_kle hp
                    (Position.kle_trans (hpendns t ht) hct.1))
                    (Position.klt_irrefl p)
        · rw [createSegment_spec curPos ns active hAct]
          refine ih _ _ ns _ (by omega) hknew rfl hpend2 htaken2 ?_ ?_ ?_ ?_ ?_
          · intro s hs
            rcases List.mem_append.mp hs with hs | hs
            · exact hres1 s hs
            · rw [List.mem_singleton] at hs
              rw [hs]
              exact hcklt
          · intro s hs
            rcases List.mem_append.mp hs with hs | hs
            · exact Position.kle_trans (hresb s hs) (Position.kle_of_klt hcklt)
            · rw [List.mem_singleton] at hs
              rw [hs]
              exact Position.kle_refl _
          · rw [List.pairwise_append]
            refine ⟨hrespw, List.pairwise_singleton _ _, ?_⟩
            intro a ha b hb
            rw [List.mem_singleton] at hb
            rw [hb]
            exact hresb a ha
          · intro p hp
            by_cases hpc : p.klt curPos
            · have hnotseg : ¬ (Range.mk curPos ns).covers p := by
                rintro ⟨h1, _⟩
                exact absurd (Position.klt_of_kle_of_klt h1 hpc)
                  (Position.klt_irrefl _)
              rw [← hcov p hpc]
              constructor
              · rintro ⟨s, hs, hcs2⟩
                rcases List.mem_append.mp hs with hs | hs
                · exact ⟨s, hs, hcs2⟩
                · rw [List.mem_singleton] at hs
                  rw [hs] at hcs2
                  exact absurd hcs2 hnotseg
              · rintro ⟨s, hs, hcs2⟩
                exact ⟨s, List.mem_append_left _ hs, hcs2⟩
            · have hcp : curPos.kle p := Position.not_klt_iff.mp hpc
              constructor
              · intro _
                obtain ⟨t, htact⟩ := List.exists_mem_of_ne_nil active hAct
                have hprops := hactmem t htact
                refine ⟨t, List.take_subset _ _ hprops.1, ?_, ?_⟩
                · exact Position.kle_trans (htaken t hprops.1) hcp
                · exact Position.klt_of_klt_of_kle hp (hnsend t htact)
              · intro _
                refine ⟨_, List.mem_append_right _ (List.mem_singleton_self _),
                  hcp, hp⟩
          · intro s hs p hcs2
            rcases List.mem_append.mp hs with hs | hs
            · exact hfid s hs p hcs2
            · rw [List.mem_singleton] at hs
              rw [hs] at hcs2 ⊢
              have hcp : curPos.kle p := hcs2.1
              have hp : p.klt ns := hcs2.2
              have hfeq : tokens.filter (fun t => decide (t.Span.covers p)) =
                  active := by
                conv_lhs => rw [← List.take_append_drop index tokens]
                rw [List.filter_append]
                have h2 : (tokens.drop index).filter
                    (fun t => decide (t.Span.covers p)) = [] := by
                  rw [List.filter_eq_nil_iff]
                  intro t ht hdec
                  have hc := of_decide_eq_true hdec
                  exact absurd (Position.klt_of_klt_of_kle hp
                    (Position.kle_trans (hpendns t ht) hc.1))
                    (Position.klt_irrefl p)
                rw [h2, List.append_nil, hact]
                refine List.filter_congr ?_
                intro t htmem
                apply decide_eq_decide.mpr
                constructor
                · intro hcv
                  exact Position.klt_of_kle_of_klt hcp hcv.2
                · intro hck
                  have htact : t ∈ active := by
                    rw [hact]
                    exact List.mem_filter.mpr ⟨htmem, decide_eq_true hck⟩
                  exact ⟨Position.kle_trans (htaken t htmem) hcp,
                    Position.klt_of_klt_of_kle hp (hnsend t htact)⟩
              unfold SegOK
              rw [hfeq]
              exact ⟨rfl, rfl, rfl, rfl, rfl⟩
      · rw [if_neg hemit]
        have hnsle : ns.kle curPos := by
          rw [← Position.not_klt_iff]
          intro hk
          exact hemit ((Position.compare_lt_iff _ _).mpr hk)
        obtain rfl : curPos = ns := Position.kle_antisymm hcurns hnsle
        exact ih _ _ curPos result (by omega) hknew rfl hpend2 htaken2 hres1
          hresb hrespw hcov hfid

/-- The master invariant instantiated at the initial state of
MergeSplitTokens. -/
theorem MergeSplitTokens_master (tokens : List TokenInfo)
    (hsort : SortedTokens tokens) (hwf : WFSpans tokens) :
    ∃ r, MergeSplitTokens tokens = .ok r ∧
      (∀ s ∈ r, s.Span.Start.klt s.Span.End) ∧
      r.Pairwise (fun a b => a.Span.End.kle b.Span.Start) ∧
      (∀ p : Position,
        ((∃ s ∈ r, s.Span.covers p) ↔ (∃ t ∈ tokens, t.Span.covers p))) ∧
      (∀ s ∈ r, ∀ p : Position, s.Span.covers p → SegOK tokens s p) := by
  match tokens with
  | [] =>
    refine ⟨[], rfl, by simp, by simp, ?_, by simp⟩
    intro p
    simp
  | t :: ts =>
    have hpend0 : ∀ u ∈ (t :: ts).drop 0, t.Span.Start.kle u.Span.Start := by
      intro u hu
      simp only [List.drop_zero] at hu
      rcases List.mem_cons.mp hu with heq | hu
      · subst heq; exact Position.kle_refl _
      · rcases (List.pairwise_cons.mp hsort).1 u hu with hlt | ⟨heq, _⟩
        · exact Position.kle_of_klt hlt
        · rw [heq]; exact Position.kle_refl _
    refine mergeLoop_master (t :: ts) hsort hwf (mergeFuel (t :: ts)) 0 []
      t.Span.Start [] (by unfold mergeFuel; simp) (by simp) rfl hpend0
      (by simp) (by simp) (by simp) (by simp) ?_ (by simp)
    intro p hp
    simp only [List.mem_nil_iff, false_and, exists_false, false_iff]
    rintro ⟨u, hu, hcu⟩
    have := hpend0 u (by simpa using hu)
    exact absurd (Position.klt_of_kle_of_klt (Position.kle_trans this hcu.1) hp)
      (Position.klt_irrefl _)

/-- Claim C2 (confirmed): for a sorted token list with well-formed spans,
the output segments are non-degenerate, sorted ascending and pairwise
non-overlapping (each end at or before every later start). -/
theorem mergeSplit_nonoverlap_sorted (tokens segs : List TokenInfo)
    (hsort : SortedTokens tokens) (hwf : WFSpans tokens)
    (h : MergeSplitTokens tokens = .ok segs) :
    (∀ s ∈ segs, s.Span.Start.klt s.Span.End) ∧
      segs.Pairwise (fun a b => a.Span.End.kle b.Span.Start) := by
  obtain ⟨r, hr, h1, h2, _, _⟩ := MergeSplitTokens_master tokens hsort hwf
  rw [h] at hr
  obtain rfl : segs = r := by
    injection hr
  exact ⟨h1, h2⟩

/-- Claim C1 (amended with well-formed spans): for a sorted token list in
which every start is at or before its end, the union of the output
segment spans equals exactly the union of the input token spans. -/
theorem mergeSplit_coverage (tokens segs : List TokenInfo)
    (hsort : SortedTokens tokens) (hwf : WFSpans tokens)
    (h : MergeSplitTokens tokens = .ok segs) :
    ∀ p : Position,
      (∃ s ∈ segs, s.Span.covers p) ↔ (∃ t ∈ tokens, t.Span.covers p) := by
  obtain ⟨r, hr, _, _, h3, _⟩ := MergeSplitTokens_master tokens hsort hwf
  rw [h] at hr
  obtain rfl : segs = r := by
    injection hr
  exact h3

/-- Claim C3 (amended with well-formed spans): for a sorted well-formed
token list, every output segment carries, at each position it covers, the
merged attributes of exactly the covering tokens: OR for the flags,
concatenated docText in activation order, last non-empty symbolID and
highlightClass. -/
theorem mergeSplit_union_fidelity (tokens segs : List TokenInfo)
    (hsort : SortedTokens tokens) (hwf : WFSpans tokens)
    (h : MergeSplitTokens tokens = .ok segs) :
    ∀ s ∈ segs, ∀ p : Position, s.Span.covers p → SegOK tokens s p := by
  obtain ⟨r, hr, _, _, _, h4⟩ := MergeSplitTokens_master tokens hsort hwf
  rw [h] at hr
  obtain rfl : segs = r := by
    injection hr
  exact h4

/-! ## Concrete inputs for counterexamples and witnesses -/

/-- Shorthand for a single-line token. -/
def mkTok (s e : Int) (sym : String) (isRef isDef : Bool) (cls : String)
    (inlay : List String) : TokenInfo :=
  { Symbol := sym, IsReference := isRef, IsDefinition := isDef,
    HighlightClass := cls, InlayText := inlay, Span := ⟨⟨0, s⟩, ⟨0, e⟩⟩ }

/-- C1 counterexample input: sorted by (start, end), but the second token
is inverted (end before start), which drags the sweep cursor backwards. -/
def exCov : List TokenInfo :=
  [mkTok 2 8 "t" false true "" [], mkTok 5 0 "u" false false "" []]

/-- The output of MergeSplitTokens on exCov: the second segment spans
(0,0)-(0,8) although no input token covers columns 0 and 1. -/
def exCovOut : List TokenInfo :=
  [{ Symbol := "t", IsReference := false, IsDefinition := true,
     HighlightClass := "", InlayText := [], Span := ⟨⟨0, 2⟩, ⟨0, 5⟩⟩ },
   { Symbol := "t", IsReference := false, IsDefinition := true,
     HighlightClass := "", InlayText := [], Span := ⟨⟨0, 0⟩, ⟨0, 8⟩⟩ }]

/-- Claim C1 counterexample: a token list sorted by (start asc, end asc)
for which the output covers position (0,0) although no input token does;
coverage equality fails without the well-formed-span hypothesis. -/
theorem mergeSplit_coverage_counterexample :
    SortedTokens exCov ∧
    MergeSplitTokens exCov = .ok exCovOut ∧
    (∃ s ∈ exCovOut, s.Span.covers ⟨0, 0⟩) ∧
    ¬ (∃ t ∈ exCov, t.Span.covers ⟨0, 0⟩) := by decide

/-- C1 witness input. -/
def witCov : List TokenInfo := [mkTok 0 4 "a" false false "" []]

/-- Witness for the amended C1 theorem at a concrete input. -/
theorem mergeSplit_coverage_witness :
    SortedTokens witCov ∧ WFSpans witCov ∧
    (∀ p : Position,
      (∃ s ∈ [mkTok 0 4 "a" false false "" []], s.Span.covers p) ↔
        (∃ t ∈ witCov, t.Span.covers p)) :=
  ⟨by decide, by decide,
    mergeSplit_coverage witCov [mkTok 0 4 "a" false false "" []]
      (by decide) (by decide) (by decide)⟩

/-- C2 witness input: the two overlapping tokens of spec Example B. -/
def witOrd : List TokenInfo :=
  [mkTok 0 15 "" false false "function" [], mkTok 5 10 "v" true false "" []]

/-- The partition of witOrd, as in spec Example B. -/
def witOrdOut : List TokenInfo :=
  [{ Symbol := "", IsReference := false, IsDefinition := false,
     HighlightClass := "function", InlayText := [], Span := ⟨⟨0, 0⟩, ⟨0, 5⟩⟩ },
   { Symbol := "v", IsReference := true, IsDefinition := false,
     HighlightClass := "function", InlayText := [], Span := ⟨⟨0, 5⟩, ⟨0, 10⟩⟩ },
   { Symbol := "", IsReference := false, IsDefinition := false,
     HighlightClass := "function", InlayText := [], Span := ⟨⟨0, 10⟩, ⟨0, 15⟩⟩ }]

/-- Witness for the C2 theorem at a concrete input (spec Example B). -/
theorem mergeSplit_nonoverlap_sorted_witness :
    SortedTokens witOrd ∧ WFSpans witOrd ∧
    ((∀ s ∈ witOrdOut, s.Span.Start.klt s.Span.End) ∧
      witOrdOut.Pairwise (fun a b => a.Span.End.kle b.Span.Start)) :=
  ⟨by decide, by decide,
    mergeSplit_nonoverlap_sorted witOrd witOrdOut (by decide) (by decide)
      (by decide)⟩

/-- C3 counterexample input: sorted, second token inverted. -/
def exFid : List TokenInfo :=
  [mkTok 2 9 "t" false true "" [], mkTok 6 1 "u" false false "" []]

/-- Output of MergeSplitTokens on exFid. -/
def exFidOut : List TokenInfo :=
  [{ Symbol := "t", IsReference := false, IsDefinition := true,
     HighlightClass := "", InlayText := [], Span := ⟨⟨0, 2⟩, ⟨0, 6⟩⟩ },
   { Symbol := "t", IsReference := false, IsDefinition := true,
     HighlightClass := "", InlayText := [], Span := ⟨⟨0, 1⟩, ⟨0, 9⟩⟩ }]

/-- Claim C3 counterexample: on a sorted list with an inverted token, the
segment covering position (0,1) has isDefinition true although the set of
tokens covering that position is empty, so its OR is false. -/
theorem mergeSplit_fidelity_counterexample :
    SortedTokens exFid ∧
    MergeSplitTokens exFid = .ok exFidOut ∧
    (∃ s ∈ exFidOut, s.Span.covers ⟨0, 1⟩ ∧ ¬ SegOK exFid s ⟨0, 1⟩) := by decide

/-- C3 witness input: overlapping tokens with symbols, classes and doc
text, exercising every merge rule. -/
def witFid : List TokenInfo :=
  [mkTok 0 10 "outer" false true "kw" ["doc1"],
   mkTok 3 7 "" true false "id" ["doc2"]]

/-- Output of MergeSplitTokens on witFid. -/
def witFidOut : List TokenInfo :=
  [{ Symbol := "outer", IsReference := false, IsDefinition := true,
     HighlightClass := "kw", InlayText := ["doc1"], Span := ⟨⟨0, 0⟩, ⟨0, 3⟩⟩ },
   { Symbol := "outer", IsReference := true, IsDefinition := true,
     HighlightClass := "id", InlayText := ["doc1", "doc2"],
     Span := ⟨⟨0, 3⟩, ⟨0, 7⟩⟩ },
   { Symbol := "outer", IsReference := false, IsDefinition := true,
     HighlightClass := "kw", InlayText := ["doc1"], Span := ⟨⟨0, 7⟩, ⟨0, 10⟩⟩ }]

/-- Witness for the amended C3 theorem at a concrete input. -/
theorem mergeSplit_union_fidelity_witness :
    SortedTokens witFid ∧ WFSpans witFid ∧
    (∀ s ∈ witFidOut, ∀ p : Position, s.Span.covers p → SegOK witFid s p) :=
  ⟨by decide, by decide,
    mergeSplit_union_fidelity witFid witFidOut (by decide) (by decide)
      (by decide)⟩

/-! ## Claim C6: degenerate tokens -/

/-- C6 counterexample input: a covering token plus a degenerate token. -/
def exDeg : List TokenInfo :=
  [mkTok 0 10 "a" false false "" [], mkTok 5 5 "d" false false "" []]

/-- Claim C6 counterexample: removing the degenerate token changes the
output list: with it the span is split into two segments at column 5,
without it a single segment is produced, so the outputs are not equal. -/
theorem mergeSplit_degenerate_counterexample :
    SortedTokens exDeg ∧ WFSpans exDeg ∧
    MergeSplitTokens exDeg ≠
      MergeSplitTokens (exDeg.filter
        (fun t => decide (t.Span.Start ≠ t.Span.End))) := by decide

/-- Claim C6 (amended): removing degenerate tokens preserves the
pointwise meaning of the output: the same positions are covered, and the
covering segments carry identical attributes; only the segment boundaries
may differ. -/
theorem mergeSplit_degenerate_pointwise (tokens segs segsND : List TokenInfo)
    (hsort : SortedTokens tokens) (hwf : WFSpans tokens)
    (h1 : MergeSplitTokens tokens = .ok segs)
    (h2 : MergeSplitTokens (tokens.filter
        (fun t => decide (t.Span.Start ≠ t.Span.End))) = .ok segsND) :
    ∀ p : Position,
      ((∃ s ∈ segs, s.Span.covers p) ↔ (∃ s ∈ segsND, s.Span.covers p)) ∧
      (∀ s ∈ segs, ∀ s2 ∈ segsND, s.Span.covers p → s2.Span.covers p →
        (s.IsDefinition = s2.IsDefinition ∧ s.IsReference = s2.IsReference ∧
         s.InlayText = s2.InlayText ∧ s.Symbol = s2.Symbol ∧
         s.HighlightClass = s2.HighlightClass)) := by
  have hsortND : SortedTokens (tokens.filter
      (fun t => decide (t.Span.Start ≠ t.Span.End))) :=
    hsort.sublist (List.filter_sublist _)
  have hwfND : WFSpans (tokens.filter
      (fun t => decide (t.Span.Start ≠ t.Span.End))) :=
    fun t ht => hwf t (List.mem_of_mem_filter ht)
  -- a covering token is never degenerate
  have hcovnd : ∀ p : Position, ∀ t ∈ tokens, t.Span.covers p →
      t.Span.Start ≠ t.Span.End := by
    intro p t _ hc heq
    have := Position.klt_of_kle_of_klt hc.1 hc.2
    rw [← heq] at this
    exact Position.klt_irrefl _ this
  -- the covering tokens are the same lists before and after the filter
  have hfeq : ∀ p : Position,
      tokens.filter (fun t => decide (t.Span.covers p)) =
        (tokens.filter (fun t => decide (t.Span.Start ≠ t.Span.End))).filter
          (fun t => decide (t.Span.covers p)) := by
    intro p
    rw [List.filter_filter]
    refine List.filter_congr ?_
    intro t ht
    by_cases hc : t.Span.covers p
    · simp [hc, hcovnd p t ht hc]
    · simp [hc]
  intro p
  constructor
  · rw [mergeSplit_coverage tokens segs hsort hwf h1 p,
      mergeSplit_coverage _ segsND hsortND hwfND h2 p]
    constructor
    · rintro ⟨t, ht, hc⟩
      refine ⟨t, ?_, hc⟩
      exact List.mem_filter.mpr ⟨ht, decide_eq_true (hcovnd p t ht hc)⟩
    · rintro ⟨t, ht, hc⟩
      exact ⟨t, List.mem_of_mem_filter ht, hc⟩
  · intro s hs s2 hs2 hcs hcs2
    have ha := mergeSplit_union_fidelity tokens segs hsort hwf h1 s hs p hcs
    have hb := mergeSplit_union_fidelity _ segsND hsortND hwfND h2 s2 hs2 p hcs2
    unfold SegOK at ha hb
    rw [← hfeq p] at hb
    refine ⟨?_, ?_, ?_, ?_, ?_⟩
    · rw [ha.1, hb.1]
    · rw [ha.2.1, hb.2.1]
    · rw [ha.2.2.1, hb.2.2.1]
    · rw [ha.2.2.2.1, hb.2.2.2.1]
    · rw [ha.2.2.2.2, hb.2.2.2.2]

/-- C6 witness input: a real token and a degenerate token at column 2. -/
def witDeg : List TokenInfo :=
  [mkTok 1 2 "w" false false "" [], mkTok 2 2 "z" true true "zz" ["zzz"]]

/-- Witness for the amended C6 theorem at a concrete input. -/
theorem mergeSplit_degenerate_pointwise_witness :
    SortedTokens witDeg ∧ WFSpans witDeg ∧
    (∀ p : Position,
      ((∃ s ∈ [mkTok 1 2 "w" false false "" []], s.Span.covers p) ↔
        (∃ s ∈ [mkTok 1 2 "w" false false "" []], s.Span.covers p)) ∧
      (∀ s ∈ [mkTok 1 2 "w" false false "" []],
        ∀ s2 ∈ [mkTok 1 2 "w" false false "" []],
        s.Span.covers p → s2.Span.covers p →
        (s.IsDefinition = s2.IsDefinition ∧ s.IsReference = s2.IsReference ∧
         s.InlayText = s2.InlayText ∧ s.Symbol = s2.Symbol ∧
         s.HighlightClass = s2.HighlightClass))) :=
  ⟨by decide, by decide,
    mergeSplit_degenerate_pointwise witDeg [mkTok 1 2 "w" false false "" []]
      [mkTok 1 2 "w" false false "" []] (by decide) (by decide) (by decide)
      (by decide)⟩

/-! ## Claim C7: idempotence on non-overlapping input -/

theorem findNextEnd_singleton (t : TokenInfo) : findNextEnd [t] = t.Span.End := by
  unfold findNextEnd
  simp [Position.compare_self]

theorem createSegment_singleton (t : TokenInfo) :
    createSegment t.Span.Start t.Span.End [t] = some t := by
  rw [createSegment_spec _ _ _ (by simp)]
  cases t with
  | mk sym ref deff cls inlay span =>
    cases span with
    | mk s e =>
      simp only [Option.some.injEq, TokenInfo.mk.injEq]
      refine ⟨?_, ?_, ?_, ?_, ?_, trivial⟩
      · by_cases h : sym = "" <;> simp [mergedSymbol, h]
      · simp [mergedIsRef]
      · simp [mergedIsDef]
      · by_cases h : cls = "" <;> simp [mergedHighlight, h]
      · simp [mergedInlay]

theorem startsAt_singleton (tokens : List TokenInfo) (pos : Position)
    (index : Nat) (hi : index < tokens.length)
    (hstart : Position.Compare ((tokens[index]).Span.Start) pos = 0)
    (hstop : ∀ h2 : index + 1 < tokens.length,
      Position.Compare ((tokens[index + 1]).Span.Start) pos ≠ 0) :
    startsAt tokens pos index = [tokens[index]] := by
  unfold startsAt
  rw [List.drop_eq_getElem_cons hi, List.takeWhile_cons,
    if_pos (decide_eq_true hstart)]
  by_cases h2 : index + 1 < tokens.length
  · rw [List.drop_eq_getElem_cons h2, List.takeWhile_cons]
    have hnp : ¬ (decide (Position.Compare ((tokens[index + 1]).Span.Start)
        pos = 0) = true) := by
      simp only [decide_eq_true_eq]
      exact hstop h2
    rw [if_neg hnp]
  · rw [List.drop_eq_nil_of_le (by omega)]
    simp

theorem startsAt_nil (tokens : List TokenInfo) (pos : Position) (index : Nat)
    (hstop : ∀ h2 : index < tokens.length,
      Position.Compare ((tokens[index]).Span.Start) pos ≠ 0) :
    startsAt tokens pos index = [] := by
  unfold startsAt
  by_cases hi : index < tokens.length
  · rw [List.drop_eq_getElem_cons hi, List.takeWhile_cons]
    have hnp : ¬ (decide (Position.Compare ((tokens[index]).Span.Start)
        pos = 0) = true) := by
      simp only [decide_eq_true_eq]
      exact hstop hi
    rw [if_neg hnp]
  · rw [List.drop_eq_nil_of_le (by omega)]
    rfl

/-- The sweep loop maps each token of a sorted, non-overlapping,
non-degenerate list to itself: from the state where token index was just
activated, the loop appends exactly the remaining input tokens. -/
theorem mergeLoop_identity (tokens : List TokenInfo)
    (hnd : ∀ t ∈ tokens, t.Span.Start.klt t.Span.End)
    (hadj : ∀ i, (h : i + 1 < tokens.length) →
      ((tokens[i]).Span.End).kle ((tokens[i + 1]).Span.Start)) :
    ∀ (fuel index : Nat) (hi : index < tokens.length)
      (result : List TokenInfo),
      2 * (tokens.length - index) ≤ fuel →
      mergeLoop tokens fuel (index + 1) [tokens[index]]
        ((tokens[index]).Span.Start) result =
        .ok (result ++ tokens.drop index) := by
  intro fuel
  induction fuel using Nat.strong_induction_on with
  | _ fuel ih =>
    intro index hi result hb
    rcases fuel with _ | n
    · omega
    have hndi := hnd (tokens[index]) (List.getElem_mem hi)
    rw [mergeLoop]
    rw [if_neg (by simp)]
    -- the next event is the end of the active token
    have hns : findNextSplit tokens (index + 1) [tokens[index]] =
        .ok ((tokens[index]).Span.End) := by
      unfold findNextSplit
      by_cases h2 : index + 1 < tokens.length
      · rw [dif_pos h2, if_pos (by simp), findNextEnd_singleton]
        by_cases hc : Position.Compare ((tokens[index]).Span.End)
            ((tokens[index + 1]).Span.Start) < 0
        · rw [if_pos hc]
        · rw [if_neg hc]
          have h1 : ((tokens[index + 1]).Span.Start).kle
              ((tokens[index]).Span.End) := by
            rw [← Position.not_klt_iff]
            intro hk
            exact hc ((Position.compare_lt_iff _ _).mpr hk)
          rw [Position.kle_antisymm h1 (hadj index h2)]
      · rw [dif_neg h2, if_pos (by simp), findNextEnd_singleton]
    rw [hns]
    dsimp only
    rw [if_pos ((Position.compare_lt_iff _ _).mpr hndi)]
    rw [createSegment_singleton]
    rw [processSplitAtPosition_spec]
    dsimp only
    by_cases h2 : index + 1 < tokens.length
    · have hndn := hnd (tokens[index + 1]) (List.getElem_mem h2)
      by_cases heq : Position.Compare ((tokens[index + 1]).Span.Start)
          ((tokens[index]).Span.End) = 0
      · -- the next token starts exactly at the current end
        have heqp : (tokens[index + 1]).Span.Start = (tokens[index]).Span.End :=
          (Position.compare_eq_zero_iff _ _).mp heq
        have hsA : startsAt tokens ((tokens[index]).Span.End) (index + 1) =
            [tokens[index + 1]] := by
          refine startsAt_singleton tokens _ (index + 1) h2 heq ?_
          intro h3 hc0
          have heq2 : (tokens[index + 1 + 1]).Span.Start =
              (tokens[index]).Span.End :=
            (Position.compare_eq_zero_iff _ _).mp hc0
          have hlt2 : ((tokens[index + 1]).Span.Start).klt
              ((tokens[index + 1 + 1]).Span.Start) :=
            Position.klt_of_klt_of_kle hndn (hadj (index + 1) h3)
          rw [heq2, heqp] at hlt2
          exact Position.klt_irrefl _ hlt2
        rw [hsA]
        have hne2 : Position.Compare ((tokens[index + 1]).Span.End)
            ((tokens[index]).Span.End) ≠ 0 := by
          intro h0
          have heq3 := (Position.compare_eq_zero_iff _ _).mp h0
          have h4 := hndn
          rw [heqp, ← heq3] at h4
          exact Position.klt_irrefl _ h4
        have hfil : ([tokens[index]] ++ [tokens[index + 1]]).filter
            (fun (token : TokenInfo) => decide (Position.Compare token.Span.End
              ((tokens[index]).Span.End) ≠ 0)) = [tokens[index + 1]] := by
          simp [List.filter, Position.compare_self, hne2]
        rw [hfil]
        simp only [List.length_singleton]
        rw [← heqp]
        rw [ih n (by omega) (index + 1) h2 (result ++ [tokens[index]]) (by omega)]
        rw [List.drop_eq_getElem_cons hi]
        simp
      · -- no token starts at the current end: the active set empties
        have hsB : startsAt tokens ((tokens[index]).Span.End) (index + 1) = [] :=
          startsAt_nil tokens _ (index + 1) (fun _ => heq)
        rw [hsB]
        have hfil : ([tokens[index]] ++ ([] : List TokenInfo)).filter
            (fun (token : TokenInfo) => decide (Position.Compare token.Span.End
              ((tokens[index]).Span.End) ≠ 0)) = [] := by
          simp [List.filter, Position.compare_self]
        rw [hfil]
        simp only [List.length_nil, Nat.add_zero]
        rcases n with _ | m
        · omega
        rw [mergeLoop]
        rw [if_neg (by simp; omega)]
        have hfs2 : findNextSplit tokens (index + 1) [] =
            .ok ((tokens[index + 1]).Span.Start) := by
          unfold findNextSplit
          rw [dif_pos h2]
          simp
        rw [hfs2]
        dsimp only
        have hsep2 : Position.Compare ((tokens[index]).Span.End)
            ((tokens[index + 1]).Span.Start) < 0 := by
          rw [Position.compare_lt_iff]
          refine Position.klt_of_kle_of_ne (hadj index h2) ?_
          intro h0
          exact heq ((Position.compare_eq_zero_iff _ _).mpr h0.symm)
        rw [if_pos hsep2]
        rw [show createSegment ((tokens[index]).Span.End)
          ((tokens[index + 1]).Span.Start) [] = none from rfl]
        rw [processSplitAtPosition_spec]
        dsimp only
        have hs2 : startsAt tokens ((tokens[index + 1]).Span.Start)
            (index + 1) = [tokens[index + 1]] := by
          refine startsAt_singleton tokens _ (index + 1) h2
            (Position.compare_self _) ?_
          intro h3 hc0
          have heq2 := (Position.compare_eq_zero_iff _ _).mp hc0
          have hlt2 : ((tokens[index + 1]).Span.Start).klt
              ((tokens[index + 1 + 1]).Span.Start) :=
            Position.klt_of_klt_of_kle hndn (hadj (index + 1) h3)
          rw [heq2] at hlt2
          exact Position.klt_irrefl _ hlt2
        rw [hs2]
        have hne3 : Position.Compare ((tokens[index + 1]).Span.End)
            ((tokens[index + 1]).Span.Start) ≠ 0 := by
          intro h0
          have heq3 := (Position.compare_eq_zero_iff _ _).mp h0
          have h4 := hndn
          rw [← heq3] at h4
          exact Position.klt_irrefl _ h4
        have hfil2 : (([] : List TokenInfo) ++ [tokens[index + 1]]).filter
            (fun (token : TokenInfo) => decide (Position.Compare token.Span.End
              ((tokens[index + 1]).Span.Start) ≠ 0)) = [tokens[index + 1]] := by
          simp [List.filter, hne3]
        rw [hfil2]
        simp only [List.length_singleton]
        rw [ih m (by omega) (index + 1) h2 (result ++ [tokens[index]]) (by omega)]
        rw [List.drop_eq_getElem_cons hi]
        simp
    · -- index was the last token: the loop terminates
      have hsB : startsAt tokens ((tokens[index]).Span.End) (index + 1) = [] := by
        unfold startsAt
        rw [List.drop_eq_nil_of_le (by omega)]
        rfl
      rw [hsB]
      have hfil : ([tokens[index]] ++ ([] : List TokenInfo)).filter
          (fun (token : TokenInfo) => decide (Position.Compare token.Span.End
            ((tokens[index]).Span.End) ≠ 0)) = [] := by
        simp [List.filter, Position.compare_self]
      rw [hfil]
      simp only [List.length_nil, Nat.add_zero]
      rcases n with _ | m
      · omega
      rw [mergeLoop]
      rw [if_pos ⟨by omega, rfl⟩]
      rw [List.drop_eq_getElem_cons hi, List.drop_eq_nil_of_le (by omega)]

/-- Claim C7 (amended with non-degenerate spans): MergeSplitTokens returns
a sorted, pairwise non-overlapping, non-degenerate token list unchanged,
with the very same annotations. -/
theorem mergeSplit_idempotent (tokens : List TokenInfo)
    (hsort : SortedTokens tokens)
    (hsep : tokens.Pairwise (fun a b => a.Span.End.kle b.Span.Start))
    (hnd : ∀ t ∈ tokens, t.Span.Start.klt t.Span.End) :
    MergeSplitTokens tokens = .ok tokens := by
  have hadj : ∀ i, (h : i + 1 < tokens.length) →
      ((tokens[i]).Span.End).kle ((tokens[i + 1]).Span.Start) := by
    intro i h
    have hc := List.chain'_iff_get.mp hsep.chain' i (by omega)
    simpa using hc
  match tokens, hsort, hnd, hadj with
  | [], _, _, _ => rfl
  | t :: ts, hsort, hnd, hadj =>
    have hdef : MergeSplitTokens (t :: ts) =
        mergeLoop (t :: ts) (2 * (t :: ts).length + 1) 0 [] t.Span.Start [] :=
      rfl
    rw [hdef]
    have hlen : 0 < (t :: ts).length := by simp
    rw [mergeLoop]
    rw [if_neg (by simp)]
    have hfs0 : findNextSplit (t :: ts) 0 [] = .ok (t.Span.Start) := by
      unfold findNextSplit
      rw [dif_pos hlen]
      simp
    rw [hfs0]
    dsimp only
    rw [if_neg (by simp [Position.compare_self])]
    rw [processSplitAtPosition_spec]
    dsimp only
    have hs0 : startsAt (t :: ts) (t.Span.Start) 0 = [(t :: ts)[0]] := by
      refine startsAt_singleton (t :: ts) _ 0 hlen ?_ ?_
      · simp [Position.compare_self]
      · intro h2 hc0
        have heq2 := (Position.compare_eq_zero_iff _ _).mp hc0
        have hlt2 : (((t :: ts)[0]).Span.Start).klt
            (((t :: ts)[0 + 1]).Span.Start) :=
          Position.klt_of_klt_of_kle (hnd ((t :: ts)[0]) (by simp))
            (hadj 0 h2)
        rw [heq2] at hlt2
        simp at hlt2
        exact Position.klt_irrefl _ hlt2
    rw [hs0]
    have hfil0 : (([] : List TokenInfo) ++ [(t :: ts)[0]]).filter
        (fun (token : TokenInfo) => decide (Position.Compare token.Span.End
          (t.Span.Start) ≠ 0)) = [(t :: ts)[0]] := by
      have hne0 : Position.Compare (t.Span.End) (t.Span.Start) ≠ 0 := by
        intro h0
        have heq3 := (Position.compare_eq_zero_iff _ _).mp h0
        have h4 := hnd t (by simp)
        rw [← heq3] at h4
        exact Position.klt_irrefl _ h4
      simp [List.filter, hne0]
    rw [hfil0]
    simp only [List.length_singleton, Nat.zero_add]
    have hstart0 : t.Span.Start = ((t :: ts)[0]).Span.Start := by simp
    rw [hstart0]
    rw [mergeLoop_identity (t :: ts) hnd hadj (2 * (t :: ts).length) 0
      (by simp) [] (by omega)]
    simp

/-- C7 counterexample input: a single degenerate token. -/
def exIdem : List TokenInfo := [mkTok 3 3 "z" false false "" []]

/-- Claim C7 counterexample: a sorted, pairwise non-overlapping list
containing a degenerate token is not returned unchanged; the degenerate
token is dropped entirely. -/
theorem mergeSplit_idempotent_counterexample :
    SortedTokens exIdem ∧ WFSpans exIdem ∧
    exIdem.Pairwise (fun a b => a.Span.End.kle b.Span.Start) ∧
    MergeSplitTokens exIdem = .ok [] ∧
    MergeSplitTokens exIdem ≠ .ok exIdem := by decide

/-- C7 witness input: three adjacent and separated tokens. -/
def witIdem : List TokenInfo :=
  [mkTok 0 3 "a" false false "" [], mkTok 3 6 "b" true false "x" [],
   mkTok 8 9 "c" false true "" ["h"]]

/-- Witness for the amended C7 theorem at a concrete input. -/
theorem mergeSplit_idempotent_witness :
    SortedTokens witIdem ∧
    witIdem.Pairwise (fun a b => a.Span.End.kle b.Span.Start) ∧
    (∀ t ∈ witIdem, t.Span.Start.klt t.Span.End) ∧
    MergeSplitTokens witIdem = .ok witIdem :=
  ⟨by decide, by decide, by decide,
    mergeSplit_idempotent witIdem (by decide) (by decide) (by decide)⟩

/-! ## The text extractor getSourceFromSpan (MarkdownGenerator.go part) -/

/-- Indexing a source line; the Go code only indexes lines proved in
range, the out-of-range default is never reached on those paths. -/
def lineAt (sourceLines : List (List Char)) (i : Int) : List Char :=
  sourceLines.getD i.toNat []

/-- getSourceFromSpan, translated from the source (lines 132 to 194 of
the file defining MarkdownGenerator): lines are rune (code point) lists,
so all indexing is rune indexing as in the Go code.  The redundant inner
bounds re-check of the single-line branch is dropped: the outer guard
already established startLine < len.  The Go loop bound i < endLine of
the middle part is rendered as take of (endLine - startLine - 1). -/
def getSourceFromSpan (sourceLines : List (List Char)) (s : Range) :
    List Char :=
  let startLine := s.Start.Line
  let endLine0 := s.End.Line
  if startLine < 0 ∨ endLine0 < 0 ∨ (sourceLines.length : Int) ≤ startLine then
    []
  else
    let endLine :=
      if (sourceLines.length : Int) ≤ endLine0 then (sourceLines.length : Int) - 1
      else endLine0
    if startLine = endLine then
      let runes := lineAt sourceLines startLine
      let startChar :=
        if s.Start.Character < 0 ∨ (runes.length : Int) < s.Start.Character
        then 0 else s.Start.Character
      let endChar :=
        if s.End.Character < 0 ∨ (runes.length : Int) < s.End.Character
        then (runes.length : Int) else s.End.Character
      if endChar ≤ startChar then []
      else (runes.drop startChar.toNat).take (endChar - startChar).toNat
    else
      let firstRunes := lineAt sourceLines startLine
      let startChar := max s.Start.Character 0
      let firstPart :=
        (if startChar ≤ (firstRunes.length : Int)
         then firstRunes.drop startChar.toNat else []) ++ ['\n']
      let middlePart :=
        (((sourceLines.drop (startLine + 1).toNat).take
            (endLine - startLine - 1).toNat).map (fun l => l ++ ['\n'])).flatten
      let lastRunes := lineAt sourceLines endLine
      let endChar := min (max s.End.Character 0) (lastRunes.length : Int)
      let lastPart := if 0 < endChar then lastRunes.take endChar.toNat else []
      firstPart ++ middlePart ++ lastPart

/-- One emission group of GenerateMDX, in output order: code block
wrapper open and close, a literal text run, an annotated token run, or a
prose block (comment content). -/
inductive Piece where
  | blockOpen : Piece
  | blockClose : Piece
  | text : List Char → Piece
  | tokenRun : TokenInfo → Piece
  | prose : String → Piece
deriving DecidableEq, Repr

/-- Go unicode.IsSpace: the Unicode white space property, as listed in
the Go standard library documentation. -/
def isSpaceGo (c : Char) : Bool :=
  c == ' ' || c == '\t' || c == '\n' || c == Char.ofNat 11 ||
  c == Char.ofNat 12 || c == '\r' || c == Char.ofNat 0x85 ||
  c == Char.ofNat 0xA0 || c == Char.ofNat 0x1680 ||
  (0x2000 ≤ c.toNat && c.toNat ≤ 0x200A) || c == Char.ofNat 0x2028 ||
  c == Char.ofNat 0x2029 || c == Char.ofNat 0x202F ||
  c == Char.ofNat 0x205F || c == Char.ofNat 0x3000

/-- strings.TrimLeftFunc with unicode.IsSpace. -/
def trimLeftGo (l : List Char) : List Char := l.dropWhile isSpaceGo

/-- strings.TrimRightFunc with unicode.IsSpace. -/
def trimRightGo (l : List Char) : List Char :=
  (l.reverse.dropWhile isSpaceGo).reverse

/-- Go len(string): the UTF-8 byte length of a line of runes. -/
def byteLen (l : List Char) : Nat := (l.map Char.utf8Size).sum

/-- The end-of-buffer position (MDXGenerator.go lines 37 to 41): line
count minus one, rune length of the last line; (0,0) for an empty file. -/
def fileEndPos (sourceLines : List (List Char)) : Position :=
  if 0 < sourceLines.length then
    ⟨(sourceLines.length : Int) - 1,
     ((lineAt sourceLines ((sourceLines.length : Int) - 1)).length : Int)⟩
  else ⟨0, 0⟩

/-- The pseudo-infinite position used when a list is exhausted
(MDXGenerator.go lines 49 to 62). -/
def sentinelPos : Position := ⟨999999, 999999⟩

def getNextTokenStart (tokens : List TokenInfo) (tokenIdx : Nat) : Position :=
  if h : tokenIdx < tokens.length then (tokens[tokenIdx]).Span.Start
  else sentinelPos

def getNextCommentStart (comments : List CommentInfo) (commentIdx : Nat) :
    Position :=
  if h : commentIdx < comments.length then (comments[commentIdx]).Span.Start
  else sentinelPos

/-- The comment skip loop (MDXGenerator.go lines 129 to 131): advance the
token index past every pending token ending at or before the cursor,
walking the remaining suffix. -/
def skipGo (cursor : Position) : List TokenInfo → Nat → Nat
  | [], tokenIdx => tokenIdx
  | t :: rest, tokenIdx =>
    if Position.Compare t.Span.End cursor ≤ 0 then
      skipGo cursor rest (tokenIdx + 1)
    else tokenIdx

/-- The gap end of a loop iteration (MDXGenerator.go lines 73 to 80):
the minimum of the end of buffer, the next token start and the next
comment start. -/
def gapEndOf (sourceLines : List (List Char)) (tokens : List TokenInfo)
    (comments : List CommentInfo) (tokenIdx commentIdx : Nat) : Position :=
  let gapEnd1 :=
    if Position.Compare (getNextTokenStart tokens tokenIdx)
        (fileEndPos sourceLines) < 0 then
      getNextTokenStart tokens tokenIdx
    else fileEndPos sourceLines
  if Position.Compare (getNextCommentStart comments commentIdx) gapEnd1 < 0
  then getNextCommentStart comments commentIdx
  else gapEnd1

/-- The gap emission step of one iteration (MDXGenerator.go lines 82 to
107): if the cursor is strictly before the gap end, fetch the covered
text, trim it on the left outside a code block and on the right when the
gap ends at the next comment, and emit it (opening a code block first if
none is open); returns (pieces, new cursor, code block flag). -/
def gapStep (sourceLines : List (List Char)) (tokens : List TokenInfo)
    (comments : List CommentInfo) (tokenIdx commentIdx : Nat)
    (currentPos : Position) (inCodeBlock : Bool) (acc : List Piece) :
    List Piece × Position × Bool :=
  let gapEnd := gapEndOf sourceLines tokens comments tokenIdx commentIdx
  if Position.Compare currentPos gapEnd < 0 then
    let gapContent0 := getSourceFromSpan sourceLines ⟨currentPos, gapEnd⟩
    let gapContent1 :=
      if inCodeBlock then gapContent0 else trimLeftGo gapContent0
    let gapContent :=
      if Position.Compare gapEnd (getNextCommentStart comments commentIdx)
          = 0 then
        trimRightGo gapContent1
      else gapContent1
    if gapContent ≠ [] then
      (acc ++ (if inCodeBlock then [] else [Piece.blockOpen]) ++
        [Piece.text gapContent], gapEnd, true)
    else (acc, gapEnd, inCodeBlock)
  else (acc, currentPos, inCodeBlock)

/-- One full iteration of the GenerateMDX loop (MDXGenerator.go lines 64
to 160), with fuel; mdxFuel below is proved sufficient.  The loop state
is (cursor, token index, comment index, code block open flag, emitted
pieces); the result carries the final pieces and flag. -/
def mdxLoop (sourceLines : List (List Char)) (tokens : List TokenInfo)
    (comments : List CommentInfo) : Nat → Position → Nat → Nat → Bool →
    List Piece → Except String (List Piece × Bool)
  | 0, _, _, _, _, _ => .error "model fuel exhausted"
  | fuel + 1, currentPos, tokenIdx, commentIdx, inCodeBlock, acc =>
    if 0 ≤ Position.Compare currentPos (fileEndPos sourceLines) ∧
        tokens.length ≤ tokenIdx ∧ comments.length ≤ commentIdx then
      .ok (acc, inCodeBlock)
    else
      let nextTokenStart := getNextTokenStart tokens tokenIdx
      let nextCommentStart := getNextCommentStart comments commentIdx
      let g := gapStep sourceLines tokens comments tokenIdx commentIdx
        currentPos inCodeBlock acc
      if Position.Compare g.2.1 nextCommentStart = 0 ∧
          Position.Compare nextCommentStart nextTokenStart ≤ 0 then
        if h : commentIdx < comments.length then
          mdxLoop sourceLines tokens comments fuel
            ((comments[commentIdx]).Span.End)
            (skipGo ((comments[commentIdx]).Span.End) (tokens.drop tokenIdx)
              tokenIdx)
            (commentIdx + 1) false
            (g.1 ++ (if g.2.2 then [Piece.blockClose] else []) ++
              [Piece.prose ((comments[commentIdx]).Content)])
        else .error "index out of range"
      else if Position.Compare g.2.1 nextTokenStart = 0 then
        if h : tokenIdx < tokens.length then
          mdxLoop sourceLines tokens comments fuel
            ((tokens[tokenIdx]).Span.End) (tokenIdx + 1) commentIdx true
            (g.1 ++ (if g.2.2 then [] else [Piece.blockOpen]) ++
              [Piece.tokenRun (tokens[tokenIdx])])
        else .error "index out of range"
      else if 0 ≤ Position.Compare g.2.1 (fileEndPos sourceLines) then
        .ok (g.1, g.2.2)
      else
        if 0 ≤ g.2.1.Line ∧ g.2.1.Line < (sourceLines.length : Int) then
          mdxLoop sourceLines tokens comments fuel
            (if (byteLen (lineAt sourceLines g.2.1.Line) : Int) <
                g.2.1.Character + 1 then
               if (sourceLines.length : Int) ≤ g.2.1.Line + 1 then
                 fileEndPos sourceLines
               else ⟨g.2.1.Line + 1, 0⟩
             else ⟨g.2.1.Line, g.2.1.Character + 1⟩)
            tokenIdx commentIdx g.2.2 g.1
        else .error "index out of range"

/-- The least line number mentioned by any span, capped at 0. -/
def minLineBound (tokens : List TokenInfo) (comments : List CommentInfo) :
    Int :=
  ((tokens.map (fun t => min t.Span.Start.Line t.Span.End.Line)) ++
    (comments.map (fun c => min c.Span.Start.Line c.Span.End.Line))).foldr
    min 0

/-- The least column number mentioned by any span, capped at 0. -/
def minCharBound (tokens : List TokenInfo) (comments : List CommentInfo) :
    Int :=
  ((tokens.map (fun t => min t.Span.Start.Character t.Span.End.Character)) ++
    (comments.map (fun c =>
      min c.Span.Start.Character c.Span.End.Character))).foldr min 0

/-- The largest byte length of a line. -/
def maxByteLen (sourceLines : List (List Char)) : Nat :=
  (sourceLines.map byteLen).foldr max 0

/-- Rank of a cursor position: an upper bound on the number of forced
fallback advances remaining before the end of the buffer. -/
def cursorRank (sourceLines : List (List Char)) (p : Position) : Nat :=
  ((sourceLines.length : Int) - p.Line).toNat * (maxByteLen sourceLines + 2) +
    ((maxByteLen sourceLines : Int) + 1 - p.Character).toNat

/-- An upper bound on cursorRank over every cursor the loop can reach. -/
def rankBound (sourceLines : List (List Char)) (tokens : List TokenInfo)
    (comments : List CommentInfo) : Nat :=
  ((sourceLines.length : Int) + 1 - minLineBound tokens comments).toNat *
      (maxByteLen sourceLines + 2) +
    ((maxByteLen sourceLines : Int) + 2 - minCharBound tokens comments).toNat

/-- Global loop measure: consumed indices dominate, then the pending-gap
flag, then the cursor rank. -/
def mdxMeasure (sourceLines : List (List Char)) (tokens : List TokenInfo)
    (comments : List CommentInfo) (currentPos : Position) (tokenIdx : Nat)
    (commentIdx : Nat) : Nat :=
  ((tokens.length - tokenIdx) + (comments.length - commentIdx)) *
      (2 * rankBound sourceLines tokens comments + 3) +
    (if Position.Compare currentPos
        (gapEndOf sourceLines tokens comments tokenIdx commentIdx) < 0 then
      rankBound sourceLines tokens comments + 1
    else 0) +
    cursorRank sourceLines currentPos

/-- Fuel sufficient for mdxLoop from the initial state. -/
def mdxFuel (sourceLines : List (List Char)) (tokens : List TokenInfo)
    (comments : List CommentInfo) : Nat :=
  mdxMeasure sourceLines tokens comments ⟨0, 0⟩ 0 0 + 1

/-- GenerateMDX (MDXGenerator.go lines 32 to 169), at piece level: run
the loop from the origin and close a still-open code block at the end. -/
def GenerateMDX (sourceLines : List (List Char)) (tokens : List TokenInfo)
    (comments : List CommentInfo) : Except String (List Piece) :=
  match mdxLoop sourceLines tokens comments
      (mdxFuel sourceLines tokens comments) ⟨0, 0⟩ 0 0 false [] with
  | .error e => .error e
  | .ok (ps, inCode) => .ok (ps ++ (if inCode then [Piece.blockClose] else []))

/-! ## Counterexamples for the assembler claims -/

/-- C4 counterexample data: a token straddling the comment start keeps
the cursor from ever hitting the comment, so a later token lying fully
inside the comment span is rendered. -/
def exPriorityTokens : List TokenInfo :=
  [mkTok 0 4 "t" false false "" [], mkTok 5 7 "t" false false "" []]

def exPriorityComments : List CommentInfo :=
  [{ Content := "C", Span := ⟨⟨0, 2⟩, ⟨0, 8⟩⟩ }]

/-- Claim C4 counterexample: with a sorted token list and a sorted,
internally non-overlapping comment list, the token spanning columns 5 to
7, though fully inside the comment span (columns 2 to 8), is rendered as
a Run; the comment itself is never emitted because another token
overlapping its start moved the cursor past it. -/
theorem generateMDX_comment_priority_counterexample :
    SortedTokens exPriorityTokens ∧
    exPriorityComments.Pairwise
      (fun a b => a.Span.End.kle b.Span.Start) ∧
    GenerateMDX [('a' :: "bcdefghij".data)] exPriorityTokens
        exPriorityComments =
      .ok [Piece.blockOpen, Piece.tokenRun (mkTok 0 4 "t" false false "" []),
        Piece.tokenRun (mkTok 5 7 "t" false false "" []), Piece.blockClose] ∧
    (∃ t ∈ exPriorityTokens, ∃ c ∈ exPriorityComments,
      (c.Span.Start.kle t.Span.Start ∧ t.Span.End.kle c.Span.End) ∧
      Piece.tokenRun t ∈
        [Piece.blockOpen, Piece.tokenRun (mkTok 0 4 "t" false false "" []),
         Piece.tokenRun (mkTok 5 7 "t" false false "" []),
         Piece.blockClose]) := by decide

/-- C5 counterexample buffer: three raw lines, the first starting with
whitespace. -/
def exConsLines : List (List Char) := [' ' :: ' ' :: 'a' :: [], ['b'], ['c']]

/-- Claim C5 counterexample: with an empty token list and an empty
comment list over a 3-line buffer whose first line starts with spaces,
the leading whitespace is trimmed although no prose precedes, so the
concatenated literal Run contents do not reproduce the buffer. -/
theorem generateMDX_conservation_counterexample :
    GenerateMDX exConsLines [] [] =
      .ok [Piece.blockOpen, Piece.text ['a', '\n', 'b', '\n', 'c'],
        Piece.blockClose] ∧
    ['a', '\n', 'b', '\n', 'c'] ≠
      (' ' :: ' ' :: 'a' :: []) ++ ['\n'] ++ ['b'] ++ ['\n'] ++ ['c'] := by
  decide

/-- C9 counterexample data: inverted and negative spans. -/
def exAbortTokens : List TokenInfo :=
  [{ Symbol := "t", IsReference := false, IsDefinition := false,
     HighlightClass := "", InlayText := [], Span := ⟨⟨0, 0⟩, ⟨-1, 5⟩⟩ },
   { Symbol := "u", IsReference := false, IsDefinition := false,
     HighlightClass := "", InlayText := [], Span := ⟨⟨-2, 0⟩, ⟨9, 9⟩⟩ }]

/-- Claim C9 counterexample: on malformed input with negative positions
the defensive fallback indexes the line slice at a negative line and the
Go code panics (modelled as an error): GenerateMDX does not return a
string for every input. -/
theorem generateMDX_abort_counterexample :
    GenerateMDX [['a', 'b']] exAbortTokens [] = .error "index out of range" := by
  decide

/-! ## Totality of GenerateMDX on well-formed positions (claim C9) -/

/-- A span whose four coordinates are non-negative. -/
def SpanNonneg (r : Range) : Prop :=
  0 ≤ r.Start.Line ∧ 0 ≤ r.Start.Character ∧ 0 ≤ r.End.Line ∧
    0 ≤ r.End.Character

instance (r : Range) : Decidable (SpanNonneg r) := by
  unfold SpanNonneg; exact inferInstance

theorem foldr_min_le_init (l : List Int) (a : Int) : l.foldr min a ≤ a := by
  induction l with
  | nil => exact le_refl a
  | cons x xs ih =>
    exact le_trans (min_le_right _ _) ih

theorem minLineBound_nonpos (tokens : List TokenInfo)
    (comments : List CommentInfo) : minLineBound tokens comments ≤ 0 :=
  foldr_min_le_init _ 0

theorem minCharBound_nonpos (tokens : List TokenInfo)
    (comments : List CommentInfo) : minCharBound tokens comments ≤ 0 :=
  foldr_min_le_init _ 0

theorem le_foldr_max (l : List Nat) (x : Nat) (h : x ∈ l) :
    x ≤ l.foldr max 0 := by
  induction l with
  | nil => cases h
  | cons y ys ih =>
    rcases List.mem_cons.mp h with heq | hmem
    · subst heq; exact le_max_left _ _
    · exact le_trans (ih hmem) (le_max_right _ _)

theorem byteLen_le_maxByteLen (sourceLines : List (List Char)) (i : Int)
    (h0 : 0 ≤ i) (h1 : i < (sourceLines.length : Int)) :
    byteLen (lineAt sourceLines i) ≤ maxByteLen sourceLines := by
  have hi : i.toNat < sourceLines.length := by omega
  have hget : lineAt sourceLines i = sourceLines[i.toNat] := by
    unfold lineAt
    exact List.getD_eq_getElem sourceLines [] hi
  rw [hget]
  exact le_foldr_max _ _ (List.mem_map_of_mem byteLen (sourceLines.getElem_mem hi))

theorem length_le_byteLen (l : List Char) : l.length ≤ byteLen l := by
  induction l with
  | nil => exact le_refl 0
  | cons c cs ih =>
    have hc := Char.utf8Size_pos c
    simp only [byteLen, List.map_cons, List.sum_cons, List.length_cons]
    simp only [byteLen] at ih
    omega

theorem cursorRank_le_rankBound (sourceLines : List (List Char))
    (tokens : List TokenInfo) (comments : List CommentInfo) (p : Position)
    (hl : 0 ≤ p.Line) (hc : 0 ≤ p.Character) :
    cursorRank sourceLines p ≤ rankBound sourceLines tokens comments := by
  have hLlo := minLineBound_nonpos tokens comments
  have hClo := minCharBound_nonpos tokens comments
  unfold cursorRank rankBound
  have h1 : ((sourceLines.length : Int) - p.Line).toNat ≤
      ((sourceLines.length : Int) + 1 - minLineBound tokens comments).toNat := by
    omega
  have h3 := Nat.mul_le_mul_right (maxByteLen sourceLines + 2) h1
  omega

theorem le_skipGo (cursor : Position) :
    ∀ (l : List TokenInfo) (i : Nat), i ≤ skipGo cursor l i
  | [], i => le_refl i
  | t :: rest, i => by
    unfold skipGo
    split
    · exact le_trans (Nat.le_succ i) (le_skipGo cursor rest (i + 1))
    · exact le_refl i

theorem skipGo_le (cursor : Position) :
    ∀ (l : List TokenInfo) (i : Nat), skipGo cursor l i ≤ i + l.length
  | [], i => by simp [skipGo]
  | t :: rest, i => by
    unfold skipGo
    split
    · have h := skipGo_le cursor rest (i + 1)
      simp only [List.length_cons]
      omega
    · simp only [List.length_cons]
      omega

theorem fileEndPos_nonneg (sourceLines : List (List Char)) :
    0 ≤ (fileEndPos sourceLines).Line ∧
    0 ≤ (fileEndPos sourceLines).Character := by
  unfold fileEndPos
  split
  · rename_i h
    exact ⟨by dsimp only; omega, by dsimp only; omega⟩
  · exact ⟨le_refl 0, le_refl 0⟩

theorem fileEndPos_klt_sentinel (sourceLines : List (List Char))
    (hlen : sourceLines.length ≤ 999999) :
    (fileEndPos sourceLines).klt sentinelPos := by
  unfold fileEndPos sentinelPos Position.klt
  split
  · dsimp only; left; omega
  · dsimp only; left; omega

theorem getNextTokenStart_nonneg (tokens : List TokenInfo) (tIdx : Nat)
    (htok : ∀ t ∈ tokens, SpanNonneg t.Span) :
    0 ≤ (getNextTokenStart tokens tIdx).Line ∧
    0 ≤ (getNextTokenStart tokens tIdx).Character := by
  unfold getNextTokenStart
  split
  · rename_i h
    have hs := htok tokens[tIdx] (tokens.getElem_mem h)
    exact ⟨hs.1, hs.2.1⟩
  · exact ⟨by decide, by decide⟩

theorem getNextCommentStart_nonneg (comments : List CommentInfo) (cIdx : Nat)
    (hcom : ∀ c ∈ comments, SpanNonneg c.Span) :
    0 ≤ (getNextCommentStart comments cIdx).Line ∧
    0 ≤ (getNextCommentStart comments cIdx).Character := by
  unfold getNextCommentStart
  split
  · rename_i h
    have hs := hcom comments[cIdx] (comments.getElem_mem h)
    exact ⟨hs.1, hs.2.1⟩
  · exact ⟨by decide, by decide⟩

theorem getNextTokenStart_sentinel (tokens : List TokenInfo) (tIdx : Nat)
    (h : ¬ tIdx < tokens.length) :
    getNextTokenStart tokens tIdx = sentinelPos := dif_neg h

theorem getNextCommentStart_sentinel (comments : List CommentInfo) (cIdx : Nat)
    (h : ¬ cIdx < comments.length) :
    getNextCommentStart comments cIdx = sentinelPos := dif_neg h

theorem gapEndOf_kle_fileEnd (sourceLines : List (List Char))
    (tokens : List TokenInfo) (comments : List CommentInfo)
    (tIdx cIdx : Nat) :
    (gapEndOf sourceLines tokens comments tIdx cIdx).kle
      (fileEndPos sourceLines) := by
  simp only [gapEndOf]
  split
  · rename_i h1
    split
    · rename_i h2
      exact Position.kle_of_klt (Position.klt_trans
        ((Position.compare_lt_iff _ _).mp h2)
        ((Position.compare_lt_iff _ _).mp h1))
    · exact Position.kle_of_klt ((Position.compare_lt_iff _ _).mp h1)
  · split
    · rename_i h2
      exact Position.kle_of_klt ((Position.compare_lt_iff _ _).mp h2)
    · exact Position.kle_refl _

theorem gapEndOf_nonneg (sourceLines : List (List Char))
    (tokens : List TokenInfo) (comments : List CommentInfo)
    (tIdx cIdx : Nat)
    (htok : ∀ t ∈ tokens, SpanNonneg t.Span)
    (hcom : ∀ c ∈ comments, SpanNonneg c.Span) :
    0 ≤ (gapEndOf sourceLines tokens comments tIdx cIdx).Line ∧
    0 ≤ (gapEndOf sourceLines tokens comments tIdx cIdx).Character := by
  have h1 := getNextTokenStart_nonneg tokens tIdx htok
  have h2 := getNextCommentStart_nonneg comments cIdx hcom
  have h3 := fileEndPos_nonneg sourceLines
  simp only [gapEndOf]
  split
  · split
    · exact h2
    · exact h1
  · split
    · exact h2
    · exact h3

theorem gapStep_snd (sourceLines : List (List Char)) (tokens : List TokenInfo)
    (comments : List CommentInfo) (tokenIdx commentIdx : Nat)
    (currentPos : Position) (inCodeBlock : Bool) (acc : List Piece) :
    (gapStep sourceLines tokens comments tokenIdx commentIdx currentPos
        inCodeBlock acc).2.1 =
      if Position.Compare currentPos
          (gapEndOf sourceLines tokens comments tokenIdx commentIdx) < 0 then
        gapEndOf sourceLines tokens comments tokenIdx commentIdx
      else currentPos := by
  simp only [gapStep,
    apply_ite (fun p : List Piece × Position × Bool => p.2.1), ite_self]

/-- The loop measure drops whenever the pair of remaining index counts
drops and the new cursor is non-negative (used by the comment and token
branches, which both consume an index). -/
theorem mdxMeasure_lt_of_index_lt (sourceLines : List (List Char))
    (tokens : List TokenInfo) (comments : List CommentInfo)
    (cursor cursor2 : Position) (tIdx cIdx tIdx2 cIdx2 : Nat)
    (hA : (tokens.length - tIdx2) + (comments.length - cIdx2) <
      (tokens.length - tIdx) + (comments.length - cIdx))
    (hl : 0 ≤ cursor2.Line) (hc : 0 ≤ cursor2.Character) :
    mdxMeasure sourceLines tokens comments cursor2 tIdx2 cIdx2 <
      mdxMeasure sourceLines tokens comments cursor tIdx cIdx := by
  have hC := cursorRank_le_rankBound sourceLines tokens comments cursor2 hl hc
  unfold mdxMeasure
  have hmul : ((tokens.length - tIdx2) + (comments.length - cIdx2) + 1) *
        (2 * rankBound sourceLines tokens comments + 3) ≤
      ((tokens.length - tIdx) + (comments.length - cIdx)) *
        (2 * rankBound sourceLines tokens comments + 3) :=
    Nat.mul_le_mul_right _ hA
  have hsucc : ((tokens.length - tIdx2) + (comments.length - cIdx2) + 1) *
        (2 * rankBound sourceLines tokens comments + 3) =
      ((tokens.length - tIdx2) + (comments.length - cIdx2)) *
        (2 * rankBound sourceLines tokens comments + 3) +
        (2 * rankBound sourceLines tokens comments + 3) := by
    ring
  split <;> split <;> omega

/-- The cursor rank drops when the column advances by one and stays at or
below the largest byte length of a line. -/
theorem cursorRank_succ_char (sourceLines : List (List Char)) (p : Position)
    (hle : p.Character < (maxByteLen sourceLines : Int)) :
    cursorRank sourceLines ⟨p.Line, p.Character + 1⟩ <
      cursorRank sourceLines p := by
  unfold cursorRank
  dsimp only
  omega

/-- The cursor rank drops when the cursor jumps to the start of the next
line. -/
theorem cursorRank_succ_line (sourceLines : List (List Char)) (p : Position)
    (hlt : p.Line + 1 < (sourceLines.length : Int)) :
    cursorRank sourceLines ⟨p.Line + 1, 0⟩ < cursorRank sourceLines p := by
  unfold cursorRank
  dsimp only
  have h1 : ((sourceLines.length : Int) - p.Line).toNat =
      ((sourceLines.length : Int) - (p.Line + 1)).toNat + 1 := by omega
  have h2 : ((sourceLines.length : Int) - p.Line).toNat *
        (maxByteLen sourceLines + 2) =
      ((sourceLines.length : Int) - (p.Line + 1)).toNat *
        (maxByteLen sourceLines + 2) + (maxByteLen sourceLines + 2) := by
    rw [h1]; ring
  omega

/-- The loop measure drops across a fallback advance: the new cursor is
at or past the gap end (so the pending-gap component is cleared), and
either the old cursor was strictly before the gap end or the cursor rank
itself drops. -/
theorem mdxMeasure_fallback_lt (sourceLines : List (List Char))
    (tokens : List TokenInfo) (comments : List CommentInfo)
    (tIdx cIdx : Nat) (cursor c4 : Position)
    (hl : 0 ≤ c4.Line) (hc : 0 ≤ c4.Character)
    (hBnew : ¬ Position.Compare c4
      (gapEndOf sourceLines tokens comments tIdx cIdx) < 0)
    (hrank : Position.Compare cursor
        (gapEndOf sourceLines tokens comments tIdx cIdx) < 0 ∨
      cursorRank sourceLines c4 < cursorRank sourceLines cursor) :
    mdxMeasure sourceLines tokens comments c4 tIdx cIdx <
      mdxMeasure sourceLines tokens comments cursor tIdx cIdx := by
  have hC := cursorRank_le_rankBound sourceLines tokens comments c4 hl hc
  unfold mdxMeasure
  rw [if_neg hBnew]
  rcases hrank with h | h
  · rw [if_pos h]
    omega
  · split <;> omega

/-- A cursor strictly before the end-of-buffer position with a
non-negative column sits on a line strictly before the line count. -/
theorem line_lt_of_klt_fileEnd (sourceLines : List (List Char))
    (p : Position) (hl : 0 ≤ p.Line) (hc : 0 ≤ p.Character)
    (h : p.klt (fileEndPos sourceLines)) :
    p.Line < (sourceLines.length : Int) := by
  unfold fileEndPos at h
  by_cases hlen : 0 < sourceLines.length
  · rw [if_pos hlen] at h
    simp only [Position.klt] at h
    omega
  · rw [if_neg hlen] at h
    simp only [Position.klt] at h
    omega

/-- Totality of the loop under well-formed position bounds: with span
coordinates non-negative, span ends different from the exhaustion
sentinel, and at most 999999 buffer lines, the loop never reaches an
error branch and the measure strictly decreases, so sufficient fuel
yields a result. -/
theorem mdxLoop_total (sourceLines : List (List Char))
    (tokens : List TokenInfo) (comments : List CommentInfo)
    (hlen : sourceLines.length ≤ 999999)
    (htok : ∀ t ∈ tokens, SpanNonneg t.Span ∧ t.Span.End ≠ sentinelPos)
    (hcom : ∀ c ∈ comments, SpanNonneg c.Span ∧ c.Span.End ≠ sentinelPos) :
    ∀ (fuel : Nat) (cursor : Position) (tokenIdx commentIdx : Nat)
      (inCode : Bool) (acc : List Piece),
      tokenIdx ≤ tokens.length → commentIdx ≤ comments.length →
      0 ≤ cursor.Line → 0 ≤ cursor.Character → cursor ≠ sentinelPos →
      mdxMeasure sourceLines tokens comments cursor tokenIdx commentIdx <
        fuel →
      ∃ r, mdxLoop sourceLines tokens comments fuel cursor tokenIdx
        commentIdx inCode acc = .ok r := by
  have htok1 : ∀ t ∈ tokens, SpanNonneg t.Span := fun t ht => (htok t ht).1
  have hcom1 : ∀ c ∈ comments, SpanNonneg c.Span := fun c h => (hcom c h).1
  intro fuel
  induction fuel with
  | zero =>
    intro cursor tIdx cIdx inCode acc _ _ _ _ _ hM
    omega
  | succ n ih =>
    intro cursor tIdx cIdx inCode acc htle hcle hl hc hsent hM
    rw [mdxLoop]
    dsimp only
    rw [gapStep_snd]
    have hEkle := gapEndOf_kle_fileEnd sourceLines tokens comments tIdx cIdx
    have hEnn := gapEndOf_nonneg sourceLines tokens comments tIdx cIdx htok1
      hcom1
    have hfeklt := fileEndPos_klt_sentinel sourceLines hlen
    have hEne : gapEndOf sourceLines tokens comments tIdx cIdx ≠
        sentinelPos :=
      Position.ne_of_klt (Position.klt_of_kle_of_klt hEkle hfeklt)
    by_cases hstop : 0 ≤ Position.Compare cursor (fileEndPos sourceLines) ∧
        tokens.length ≤ tIdx ∧ comments.length ≤ cIdx
    · rw [if_pos hstop]
      exact ⟨_, rfl⟩
    rw [if_neg hstop]
    generalize hcur1 : (if Position.Compare cursor
        (gapEndOf sourceLines tokens comments tIdx cIdx) < 0 then
      gapEndOf sourceLines tokens comments tIdx cIdx else cursor) = cur1
    have hcases : (cur1 = gapEndOf sourceLines tokens comments tIdx cIdx ∧
        Position.Compare cursor
          (gapEndOf sourceLines tokens comments tIdx cIdx) < 0) ∨
        (cur1 = cursor ∧ ¬ Position.Compare cursor
          (gapEndOf sourceLines tokens comments tIdx cIdx) < 0) := by
      rw [← hcur1]
      split
      · rename_i h
        exact Or.inl ⟨rfl, h⟩
      · rename_i h
        exact Or.inr ⟨rfl, h⟩
    have hc1l : 0 ≤ cur1.Line := by
      rcases hcases with ⟨h, _⟩ | ⟨h, _⟩ <;> rw [h]
      · exact hEnn.1
      · exact hl
    have hc1c : 0 ≤ cur1.Character := by
      rcases hcases with ⟨h, _⟩ | ⟨h, _⟩ <;> rw [h]
      · exact hEnn.2
      · exact hc
    have hc1ne : cur1 ≠ sentinelPos := by
      rcases hcases with ⟨h, _⟩ | ⟨h, _⟩ <;> rw [h]
      · exact hEne
      · exact hsent
    have hEle1 : (gapEndOf sourceLines tokens comments tIdx cIdx).kle cur1 := by
      rcases hcases with ⟨h, _⟩ | ⟨h, hC⟩ <;> rw [h]
      · exact Position.kle_refl _
      · exact Position.not_klt_iff.mp
          (fun hk => hC ((Position.compare_lt_iff _ _).mpr hk))
    by_cases hcc : Position.Compare cur1 (getNextCommentStart comments cIdx)
          = 0 ∧
        Position.Compare (getNextCommentStart comments cIdx)
          (getNextTokenStart tokens tIdx) ≤ 0
    · rw [if_pos hcc]
      have hclt : cIdx < comments.length := by
        by_contra hno
        rw [getNextCommentStart_sentinel comments cIdx hno] at hcc
        exact hc1ne ((Position.compare_eq_zero_iff _ _).mp hcc.1)
      rw [dif_pos hclt]
      have hs := hcom comments[cIdx] (comments.getElem_mem hclt)
      have hskip1 := le_skipGo ((comments[cIdx]).Span.End) (tokens.drop tIdx)
        tIdx
      have hskip2 := skipGo_le ((comments[cIdx]).Span.End) (tokens.drop tIdx)
        tIdx
      rw [List.length_drop] at hskip2
      apply ih
      · omega
      · omega
      · exact hs.1.2.2.1
      · exact hs.1.2.2.2
      · exact hs.2
      · have hdec := mdxMeasure_lt_of_index_lt sourceLines tokens comments
          cursor ((comments[cIdx]).Span.End) tIdx cIdx
          (skipGo ((comments[cIdx]).Span.End) (tokens.drop tIdx) tIdx)
          (cIdx + 1) (by omega) hs.1.2.2.1 hs.1.2.2.2
        omega
    rw [if_neg hcc]
    by_cases htc : Position.Compare cur1 (getNextTokenStart tokens tIdx) = 0
    · rw [if_pos htc]
      have htlt : tIdx < tokens.length := by
        by_contra hno
        rw [getNextTokenStart_sentinel tokens tIdx hno] at htc
        exact hc1ne ((Position.compare_eq_zero_iff _ _).mp htc)
      rw [dif_pos htlt]
      have hs := htok tokens[tIdx] (tokens.getElem_mem htlt)
      apply ih
      · omega
      · omega
      · exact hs.1.2.2.1
      · exact hs.1.2.2.2
      · exact hs.2
      · have hdec := mdxMeasure_lt_of_index_lt sourceLines tokens comments
          cursor ((tokens[tIdx]).Span.End) tIdx cIdx (tIdx + 1) cIdx
          (by omega) hs.1.2.2.1 hs.1.2.2.2
        omega
    rw [if_neg htc]
    by_cases hend : 0 ≤ Position.Compare cur1 (fileEndPos sourceLines)
    · rw [if_pos hend]
      exact ⟨_, rfl⟩
    rw [if_neg hend]
    have hklt : cur1.klt (fileEndPos sourceLines) :=
      (Position.compare_lt_iff _ _).mp (by omega)
    have hline : cur1.Line < (sourceLines.length : Int) :=
      line_lt_of_klt_fileEnd sourceLines cur1 hc1l hc1c hklt
    rw [if_pos (And.intro hc1l hline)]
    by_cases hbl : (byteLen (lineAt sourceLines cur1.Line) : Int) <
        cur1.Character + 1
    · rw [if_pos hbl]
      by_cases hlast : (sourceLines.length : Int) ≤ cur1.Line + 1
      · rw [if_pos hlast]
        exfalso
        have hpos : 0 < sourceLines.length := by omega
        have hfe : fileEndPos sourceLines =
            ⟨(sourceLines.length : Int) - 1,
             ((lineAt sourceLines
                ((sourceLines.length : Int) - 1)).length : Int)⟩ := by
          unfold fileEndPos
          rw [if_pos hpos]
        have hleq : cur1.Line = (sourceLines.length : Int) - 1 := by omega
        rw [hfe] at hklt
        simp only [Position.klt] at hklt
        rw [hleq] at hbl
        have hlb := length_le_byteLen
          (lineAt sourceLines ((sourceLines.length : Int) - 1))
        omega
      · rw [if_neg hlast]
        apply ih
        · exact htle
        · exact hcle
        · show (0 : Int) ≤ cur1.Line + 1
          omega
        · exact le_refl 0
        · intro heq
          have hq := congrArg Position.Character heq
          dsimp only [sentinelPos] at hq
          omega
        · have hlt14 : cur1.klt (⟨cur1.Line + 1, 0⟩ : Position) :=
            Or.inl (by show cur1.Line < cur1.Line + 1; omega)
          have hBnew : ¬ Position.Compare (⟨cur1.Line + 1, 0⟩ : Position)
              (gapEndOf sourceLines tokens comments tIdx cIdx) < 0 := by
            intro hcmp
            exact absurd ((Position.compare_lt_iff _ _).mp hcmp)
              (Position.not_klt_iff.mpr (Position.kle_trans hEle1
                (Position.kle_of_klt hlt14)))
          have hrank : Position.Compare cursor
              (gapEndOf sourceLines tokens comments tIdx cIdx) < 0 ∨
              cursorRank sourceLines (⟨cur1.Line + 1, 0⟩ : Position) <
                cursorRank sourceLines cursor := by
            rcases hcases with ⟨hq, hC⟩ | ⟨hq, hC⟩
            · exact Or.inl hC
            · right
              rw [hq]
              exact cursorRank_succ_line sourceLines cursor
                (by rw [← hq]; omega)
          have hdec := mdxMeasure_fallback_lt sourceLines tokens comments
            tIdx cIdx cursor (⟨cur1.Line + 1, 0⟩ : Position)
            (by show (0 : Int) ≤ cur1.Line + 1; omega) (le_refl 0)
            hBnew hrank
          omega
    · rw [if_neg hbl]
      have hMle := byteLen_le_maxByteLen sourceLines cur1.Line hc1l hline
      apply ih
      · exact htle
      · exact hcle
      · exact hc1l
      · show (0 : Int) ≤ cur1.Character + 1
        omega
      · intro heq
        have hq := congrArg Position.Line heq
        dsimp only [sentinelPos] at hq
        omega
      · have hlt14 : cur1.klt (⟨cur1.Line, cur1.Character + 1⟩ : Position) :=
          Or.inr ⟨rfl, by show cur1.Character < cur1.Character + 1; omega⟩
        have hBnew : ¬ Position.Compare
            (⟨cur1.Line, cur1.Character + 1⟩ : Position)
            (gapEndOf sourceLines tokens comments tIdx cIdx) < 0 := by
          intro hcmp
          exact absurd ((Position.compare_lt_iff _ _).mp hcmp)
            (Position.not_klt_iff.mpr (Position.kle_trans hEle1
              (Position.kle_of_klt hlt14)))
        have hrank : Position.Compare cursor
            (gapEndOf sourceLines tokens comments tIdx cIdx) < 0 ∨
            cursorRank sourceLines
                (⟨cur1.Line, cur1.Character + 1⟩ : Position) <
              cursorRank sourceLines cursor := by
          rcases hcases with ⟨hq, hC⟩ | ⟨hq, hC⟩
          · exact Or.inl hC
          · right
            rw [hq]
            exact cursorRank_succ_char sourceLines cursor (by rw [← hq]; omega)
        have hdec := mdxMeasure_fallback_lt sourceLines tokens comments
          tIdx cIdx cursor (⟨cur1.Line, cur1.Character + 1⟩ : Position)
          hc1l (by show (0 : Int) ≤ cur1.Character + 1; omega)
          hBnew hrank
        omega

/-- Claim C9 (amended): for every token and comment list whose span
coordinates are all non-negative and whose span ends differ from the
exhaustion sentinel (999999, 999999), over a buffer of at most 999999
lines, GenerateMDX terminates and returns a result without aborting: the
defensive fallback force-advances the cursor one position and every loop
iteration strictly decreases a well-founded measure, and no index is
ever out of range.  (On arbitrary malformed input the claim fails:
generateMDX_abort_counterexample shows a negative span position making
the fallback index a line out of range, on which the Go code panics.) -/
theorem generateMDX_total (sourceLines : List (List Char))
    (tokens : List TokenInfo) (comments : List CommentInfo)
    (hlen : sourceLines.length ≤ 999999)
    (htok : ∀ t ∈ tokens, SpanNonneg t.Span ∧ t.Span.End ≠ sentinelPos)
    (hcom : ∀ c ∈ comments, SpanNonneg c.Span ∧ c.Span.End ≠ sentinelPos) :
    ∃ ps, GenerateMDX sourceLines tokens comments = .ok ps := by
  obtain ⟨⟨ps, flag⟩, hr⟩ := mdxLoop_total sourceLines tokens comments hlen
    htok hcom (mdxFuel sourceLines tokens comments) ⟨0, 0⟩ 0 0 false []
    (Nat.zero_le _) (Nat.zero_le _) (le_refl 0) (le_refl 0) (by decide)
    (by unfold mdxFuel; exact Nat.lt_succ_self _)
  unfold GenerateMDX
  rw [hr]
  exact ⟨_, rfl⟩

/-! ## Comment priority (claim C4) -/

/-- A token lying fully inside a comment span. -/
def InsideComment (t : TokenInfo) (c : CommentInfo) : Prop :=
  c.Span.Start.kle t.Span.Start ∧ t.Span.End.kle c.Span.End

instance (t : TokenInfo) (c : CommentInfo) : Decidable (InsideComment t c) := by
  unfold InsideComment; exact inferInstance

/-- No partial overlap: every token is fully inside or fully disjoint
from every comment. -/
def NoPartialOverlap (tokens : List TokenInfo)
    (comments : List CommentInfo) : Prop :=
  ∀ tk ∈ tokens, ∀ cm ∈ comments,
    InsideComment tk cm ∨ tk.Span.End.kle cm.Span.Start ∨
      cm.Span.End.kle tk.Span.Start

instance (tokens : List TokenInfo) (comments : List CommentInfo) :
    Decidable (NoPartialOverlap tokens comments) := by
  unfold NoPartialOverlap; exact inferInstance

/-- The origin precedes every position with non-negative coordinates. -/
theorem kle_of_nonneg (p : Position) (hl : 0 ≤ p.Line)
    (hc : 0 ≤ p.Character) : (⟨0, 0⟩ : Position).kle p := by
  simp only [Position.kle]
  rcases lt_or_eq_of_le hl with h | h
  · exact Or.inl h
  · exact Or.inr ⟨h, hc⟩

/-- In a pairwise separated, well-formed list, starts are monotone in the
index. -/
theorem start_mono {α : Type} (f : α → Range) (l : List α)
    (hsep : l.Pairwise (fun a b => (f a).End.kle (f b).Start))
    (hwf : ∀ x ∈ l, (f x).Start.kle (f x).End)
    (i k : Nat) (hik : i ≤ k) (hk : k < l.length) :
    (f (l.get ⟨i, lt_of_le_of_lt hik hk⟩)).Start.kle
      (f (l.get ⟨k, hk⟩)).Start := by
  rcases Nat.eq_or_lt_of_le hik with heq | hlt
  · subst heq
    exact Position.kle_refl _
  · have hrel := List.pairwise_iff_get.mp hsep ⟨i, lt_of_le_of_lt hik hk⟩
      ⟨k, hk⟩ (Fin.mk_lt_mk.mpr hlt)
    exact Position.kle_trans
      (hwf (l.get ⟨i, lt_of_le_of_lt hik hk⟩)
        (List.get_mem l i (lt_of_le_of_lt hik hk))) hrel

/-- The gap end never passes the next token start. -/
theorem gapEndOf_kle_nts (sourceLines : List (List Char))
    (tokens : List TokenInfo) (comments : List CommentInfo)
    (tIdx cIdx : Nat) :
    (gapEndOf sourceLines tokens comments tIdx cIdx).kle
      (getNextTokenStart tokens tIdx) := by
  simp only [gapEndOf]
  split
  · split
    · rename_i h2
      exact Position.kle_of_klt ((Position.compare_lt_iff _ _).mp h2)
    · exact Position.kle_refl _
  · rename_i h1
    have hfle : (fileEndPos sourceLines).kle (getNextTokenStart tokens tIdx) :=
      Position.not_klt_iff.mp
        (fun hk => h1 ((Position.compare_lt_iff _ _).mpr hk))
    split
    · rename_i h2
      exact Position.kle_trans
        (Position.kle_of_klt ((Position.compare_lt_iff _ _).mp h2)) hfle
    · exact hfle

/-- The gap end never passes the next comment start. -/
theorem gapEndOf_kle_ncs (sourceLines : List (List Char))
    (tokens : List TokenInfo) (comments : List CommentInfo)
    (tIdx cIdx : Nat) :
    (gapEndOf sourceLines tokens comments tIdx cIdx).kle
      (getNextCommentStart comments cIdx) := by
  simp only [gapEndOf]
  split
  · split
    · exact Position.kle_refl _
    · rename_i h2
      exact Position.not_klt_iff.mp
        (fun hk => h2 ((Position.compare_lt_iff _ _).mpr hk))
  · split
    · exact Position.kle_refl _
    · rename_i h2
      exact Position.not_klt_iff.mp
        (fun hk => h2 ((Position.compare_lt_iff _ _).mpr hk))

theorem get_congr {α : Type} (l : List α) (a b : Nat) (ha : a < l.length)
    (hb : b < l.length) (hab : a = b) : l.get ⟨a, ha⟩ = l.get ⟨b, hb⟩ := by
  subst hab
  rfl

/-- Pairwise separation read off at two indices. -/
theorem sep_end_start {α : Type} (f : α → Range) (l : List α)
    (hsep : l.Pairwise (fun a b => (f a).End.kle (f b).Start))
    (i k : Nat) (hik : i < k) (hk : k < l.length) :
    (f (l.get ⟨i, lt_trans hik hk⟩)).End.kle (f (l.get ⟨k, hk⟩)).Start :=
  List.pairwise_iff_get.mp hsep _ _ (Fin.mk_lt_mk.mpr hik)

/-- Suffix form: whenever the comment skip loop result points inside the
walked list, the token it stopped at ends strictly after the cursor. -/
theorem skipGo_stop_suffix (cursor : Position) :
    ∀ (l : List TokenInfo) (i n : Nat) (h : n < l.length),
      skipGo cursor l i = i + n →
      ¬ Position.Compare ((l.get ⟨n, h⟩).Span.End) cursor ≤ 0
  | [], _, _, h, _ => by simp at h
  | tk :: rest, i, n, h, heq => by
    by_cases hc : Position.Compare tk.Span.End cursor ≤ 0
    · rw [show skipGo cursor (tk :: rest) i = skipGo cursor rest (i + 1) from
        by rw [skipGo, if_pos hc]] at heq
      have hge := le_skipGo cursor rest (i + 1)
      cases n with
      | zero => exact absurd heq (by omega)
      | succ m =>
        rw [List.get_cons_succ]
        exact skipGo_stop_suffix cursor rest (i + 1) m (by simpa using h)
          (by omega)
    · rw [show skipGo cursor (tk :: rest) i = i from
        by rw [skipGo, if_neg hc]] at heq
      cases n with
      | zero => exact hc
      | succ m => exact absurd heq (by omega)

/-- Suffix form: if the first j walked tokens all end at or before the
cursor, the comment skip loop passes them all. -/
theorem skipGo_ge_suffix (cursor : Position) :
    ∀ (l : List TokenInfo) (i j : Nat) (hj : j ≤ l.length),
      (∀ m (hm : m < j),
        Position.Compare ((l.get ⟨m, lt_of_lt_of_le hm hj⟩).Span.End) cursor
          ≤ 0) →
      i + j ≤ skipGo cursor l i
  | l, i, 0, _, _ => by
    have := le_skipGo cursor l i
    omega
  | [], _, j + 1, hj, _ => by simp at hj
  | tk :: rest, i, j + 1, hj, hall => by
    have h0 : Position.Compare tk.Span.End cursor ≤ 0 := hall 0 (Nat.succ_pos j)
    rw [show skipGo cursor (tk :: rest) i = skipGo cursor rest (i + 1) from
      by rw [skipGo, if_pos h0]]
    simp only [List.length_cons] at hj
    have hrec := skipGo_ge_suffix cursor rest (i + 1) j (by omega)
      (fun m hm => hall (m + 1) (by omega))
    omega

/-- The token the comment skip loop stops at (if any remains) ends
strictly after the cursor. -/
theorem skipGo_stop_at (cursor : Position) (tokens : List TokenInfo)
    (tIdx : Nat) (htle : tIdx ≤ tokens.length)
    (hlt : skipGo cursor (tokens.drop tIdx) tIdx < tokens.length) :
    ¬ Position.Compare
      ((tokens.get ⟨skipGo cursor (tokens.drop tIdx) tIdx, hlt⟩).Span.End)
      cursor ≤ 0 := by
  have hge := le_skipGo cursor (tokens.drop tIdx) tIdx
  have hnlt : skipGo cursor (tokens.drop tIdx) tIdx - tIdx <
      (tokens.drop tIdx).length := by
    rw [List.length_drop]
    omega
  have hstop := skipGo_stop_suffix cursor (tokens.drop tIdx) tIdx
    (skipGo cursor (tokens.drop tIdx) tIdx - tIdx) hnlt (by omega)
  have hdg : (tokens.drop tIdx).get ⟨skipGo cursor (tokens.drop tIdx) tIdx
      - tIdx, hnlt⟩ =
      tokens.get ⟨tIdx + (skipGo cursor (tokens.drop tIdx) tIdx - tIdx),
        by omega⟩ := by
    rw [List.get_eq_getElem, List.get_eq_getElem]
    exact List.getElem_drop tokens
  rw [hdg] at hstop
  rw [get_congr tokens
    (tIdx + (skipGo cursor (tokens.drop tIdx) tIdx - tIdx))
    (skipGo cursor (tokens.drop tIdx) tIdx) (by omega) hlt (by omega)]
    at hstop
  exact hstop

/-- If every token from the current index up to index j ends at or
before the cursor, the comment skip loop passes index j. -/
theorem skipGo_ge_at (cursor : Position) (tokens : List TokenInfo)
    (tIdx j : Nat) (hj : j < tokens.length) (hjt : tIdx ≤ j)
    (hall : ∀ m (hm : tIdx ≤ m) (hmj : m ≤ j),
      Position.Compare ((tokens.get ⟨m, lt_of_le_of_lt hmj hj⟩).Span.End)
        cursor ≤ 0) :
    j + 1 ≤ skipGo cursor (tokens.drop tIdx) tIdx := by
  have hge := skipGo_ge_suffix cursor (tokens.drop tIdx) tIdx (j + 1 - tIdx)
    (by rw [List.length_drop]; omega)
    (by
      intro m hm
      have hmlt : m < (tokens.drop tIdx).length := by
        rw [List.length_drop]
        omega
      show Position.Compare
        (((tokens.drop tIdx).get ⟨m, hmlt⟩).Span.End) cursor ≤ 0
      have hdg : (tokens.drop tIdx).get ⟨m, hmlt⟩ =
          tokens.get ⟨tIdx + m, by omega⟩ := by
        rw [List.get_eq_getElem, List.get_eq_getElem]
        exact List.getElem_drop tokens
      rw [hdg]
      exact hall (tIdx + m) (Nat.le_add_right _ _) (by omega))
  omega

/-- Membership in the pieces component of a conditional state triple. -/
theorem mem_ite_pair_fst {c : Prop} [Decidable c]
    (x y : List Piece × Position × Bool) (q : Piece)
    (hq : q ∈ (if c then x else y).1) : q ∈ x.1 ∨ q ∈ y.1 := by
  split at hq
  · exact Or.inl hq
  · exact Or.inr hq

/-- The gap step only ever appends a code block opener and a text run to
the accumulated pieces. -/
theorem gapStep_fst_mem (sourceLines : List (List Char))
    (tokens : List TokenInfo) (comments : List CommentInfo)
    (tokenIdx commentIdx : Nat) (currentPos : Position) (inCodeBlock : Bool)
    (acc : List Piece) (q : Piece)
    (hq : q ∈ (gapStep sourceLines tokens comments tokenIdx commentIdx
      currentPos inCodeBlock acc).1) :
    q ∈ acc ∨ q = Piece.blockOpen ∨ ∃ s, q = Piece.text s := by
  simp only [gapStep] at hq
  rcases mem_ite_pair_fst _ _ q hq with hq1 | hq1
  · rcases mem_ite_pair_fst _ _ q hq1 with hq2 | hq2
    · rcases List.mem_append.mp hq2 with hq3 | hq4
      · rcases List.mem_append.mp hq3 with hqa | hqo
        · exact Or.inl hqa
        · right
          left
          by_cases hic : inCodeBlock
          · rw [if_pos hic] at hqo
            exact absurd hqo (List.not_mem_nil q)
          · rw [if_neg hic] at hqo
            exact List.mem_singleton.mp hqo
      · right
        right
        exact ⟨_, List.mem_singleton.mp hq4⟩
    · exact Or.inl hq2
  · exact Or.inl hq1

/-- Invariant proof for comment priority: under separated well-formed
tokens and comments with no partial token/comment overlap, a run for a
token value lying fully inside some comment is never emitted by the
loop, given that pending tokens and comments start at or after the
cursor, that any pending occurrence of the token value implies its
surrounding comment is also pending, and that the accumulator is clean. -/
theorem mdxLoop_no_inside_run (sourceLines : List (List Char))
    (tokens : List TokenInfo) (comments : List CommentInfo)
    (hlen : sourceLines.length ≤ 999999)
    (htokSep : tokens.Pairwise (fun a b => a.Span.End.kle b.Span.Start))
    (htokWf : ∀ tk ∈ tokens, tk.Span.Start.kle tk.Span.End)
    (hcomSep : comments.Pairwise (fun a b => a.Span.End.kle b.Span.Start))
    (hcomWf : ∀ cm ∈ comments, cm.Span.Start.kle cm.Span.End)
    (halign : NoPartialOverlap tokens comments)
    (t : TokenInfo) (kc : Nat) (hkc : kc < comments.length)
    (hinside : InsideComment t comments[kc]) :
    ∀ (fuel : Nat) (cursor : Position) (tIdx cIdx : Nat)
      (inCode : Bool) (acc : List Piece),
      tIdx ≤ tokens.length → cIdx ≤ comments.length →
      (∀ j (hj : j < tokens.length), tIdx ≤ j →
        cursor.kle (tokens[j]).Span.Start) →
      (∀ k (hk : k < comments.length), cIdx ≤ k →
        cursor.kle (comments[k]).Span.Start) →
      (∀ j (hj : j < tokens.length), tIdx ≤ j → tokens[j] = t →
        cIdx ≤ kc) →
      Piece.tokenRun t ∉ acc →
      ∀ ps flag,
        mdxLoop sourceLines tokens comments fuel cursor tIdx cIdx
          inCode acc = .ok (ps, flag) →
        Piece.tokenRun t ∉ ps := by
  intro fuel
  induction fuel with
  | zero =>
    intro cursor tIdx cIdx inCode acc _ _ _ _ _ _ ps flag hok
    exact Except.noConfusion hok
  | succ n ih =>
    intro cursor tIdx cIdx inCode acc htle hcle hI2 hI3 hI4 hacc ps flag hok
    rw [mdxLoop] at hok
    dsimp only at hok
    rw [gapStep_snd] at hok
    by_cases hstop : 0 ≤ Position.Compare cursor (fileEndPos sourceLines) ∧
        tokens.length ≤ tIdx ∧ comments.length ≤ cIdx
    · rw [if_pos hstop] at hok
      have hpair := Except.ok.inj hok
      rw [Prod.mk.injEq] at hpair
      rw [← hpair.1]
      exact hacc
    rw [if_neg hstop] at hok
    set cur1 := (if Position.Compare cursor
        (gapEndOf sourceLines tokens comments tIdx cIdx) < 0 then
      gapEndOf sourceLines tokens comments tIdx cIdx else cursor) with hcur1
    have hcases : (cur1 = gapEndOf sourceLines tokens comments tIdx cIdx ∧
        Position.Compare cursor
          (gapEndOf sourceLines tokens comments tIdx cIdx) < 0) ∨
        (cur1 = cursor ∧ ¬ Position.Compare cursor
          (gapEndOf sourceLines tokens comments tIdx cIdx) < 0) := by
      rw [hcur1]
      split
      · rename_i h
        exact Or.inl ⟨rfl, h⟩
      · rename_i h
        exact Or.inr ⟨rfl, h⟩
    have hc1I2 : ∀ j (hj : j < tokens.length), tIdx ≤ j →
        cur1.kle (tokens[j]).Span.Start := by
      intro j hj hjge
      rcases hcases with ⟨hq, _⟩ | ⟨hq, _⟩
      · rw [hq]
        have h1 := gapEndOf_kle_nts sourceLines tokens comments tIdx cIdx
        have htl : tIdx < tokens.length := lt_of_le_of_lt hjge hj
        unfold getNextTokenStart at h1
        rw [dif_pos htl] at h1
        refine Position.kle_trans h1 ?_
        exact start_mono (fun tk => tk.Span) tokens htokSep htokWf tIdx j
          hjge hj
      · rw [hq]
        exact hI2 j hj hjge
    have hc1I3 : ∀ k (hk : k < comments.length), cIdx ≤ k →
        cur1.kle (comments[k]).Span.Start := by
      intro k hk hkge
      rcases hcases with ⟨hq, _⟩ | ⟨hq, _⟩
      · rw [hq]
        have h1 := gapEndOf_kle_ncs sourceLines tokens comments tIdx cIdx
        have hcl : cIdx < comments.length := lt_of_le_of_lt hkge hk
        unfold getNextCommentStart at h1
        rw [dif_pos hcl] at h1
        refine Position.kle_trans h1 ?_
        exact start_mono (fun cm => cm.Span) comments hcomSep hcomWf cIdx k
          hkge hk
      · rw [hq]
        exact hI3 k hk hkge
    by_cases hcc : Position.Compare cur1 (getNextCommentStart comments cIdx)
          = 0 ∧
        Position.Compare (getNextCommentStart comments cIdx)
          (getNextTokenStart tokens tIdx) ≤ 0
    · rw [if_pos hcc] at hok
      by_cases hclt : cIdx < comments.length
      · rw [dif_pos hclt] at hok
        refine ih _ _ _ _ _ ?_ ?_ ?_ ?_ ?_ ?_ ps flag hok
        · have h1 := skipGo_le ((comments[cIdx]).Span.End) (tokens.drop tIdx)
            tIdx
          rw [List.length_drop] at h1
          omega
        · omega
        · intro j hj hjge
          have hslt : skipGo ((comments[cIdx]).Span.End) (tokens.drop tIdx)
              tIdx < tokens.length := lt_of_le_of_lt hjge hj
          have hstop2 := skipGo_stop_at ((comments[cIdx]).Span.End) tokens
            tIdx htle hslt
          have hmems : tokens.get ⟨skipGo ((comments[cIdx]).Span.End)
              (tokens.drop tIdx) tIdx, hslt⟩ ∈ tokens :=
            List.get_mem tokens _ hslt
          rcases halign _ hmems (comments[cIdx])
              (comments.getElem_mem hclt) with hins | hd1 | hd2
          · exact absurd ((Position.compare_le_iff _ _).mpr hins.2) hstop2
          · exact absurd ((Position.compare_le_iff _ _).mpr
              (Position.kle_trans hd1 (hcomWf (comments[cIdx])
                (comments.getElem_mem hclt)))) hstop2
          · rcases Nat.eq_or_lt_of_le hjge with heqj | hltj
            · have hgg : tokens.get ⟨skipGo ((comments[cIdx]).Span.End)
                  (tokens.drop tIdx) tIdx, hslt⟩ = tokens.get ⟨j, hj⟩ :=
                get_congr tokens _ j hslt hj heqj
              rw [hgg] at hd2
              exact hd2
            · have hes := sep_end_start (fun tk => tk.Span) tokens htokSep
                _ j hltj hj
              have hwfs := htokWf _ hmems
              exact Position.kle_trans hd2 (Position.kle_trans hwfs hes)
        · intro k hk hkge
          exact sep_end_start (fun cm => cm.Span) comments hcomSep cIdx k
            (by omega) hk
        · intro j hj hjge heqt
          have hold : cIdx ≤ kc := hI4 j hj
            (le_trans (le_skipGo _ (tokens.drop tIdx) tIdx) hjge) heqt
          rcases Nat.eq_or_lt_of_le hold with heqk | hltk
          · exfalso
            have hgetj : tokens.get ⟨j, hj⟩ = t := heqt
            have hceq : comments.get ⟨cIdx, hclt⟩ = comments.get ⟨kc, hkc⟩ :=
              get_congr comments cIdx kc hclt hkc heqk
            have hskipped := skipGo_ge_at ((comments[cIdx]).Span.End) tokens
              tIdx j hj (le_trans (le_skipGo _ _ _) hjge) ?_
            · omega
            · intro m hm hmj
              apply (Position.compare_le_iff _ _).mpr
              rcases Nat.eq_or_lt_of_le hmj with heqm | hltm
              · have hgg : tokens.get ⟨m, lt_of_le_of_lt hmj hj⟩ =
                    tokens.get ⟨j, hj⟩ :=
                  get_congr tokens m j _ hj heqm
                rw [hgg, hgetj]
                show t.Span.End.kle ((comments.get ⟨cIdx, hclt⟩).Span.End)
                rw [hceq]
                exact hinside.2
              · have hes := sep_end_start (fun tk => tk.Span) tokens htokSep
                  m j hltm hj
                have hwfj := htokWf (tokens.get ⟨j, hj⟩)
                  (List.get_mem tokens j hj)
                have hj2 : (tokens.get ⟨j, hj⟩).Span.End.kle
                    ((comments[cIdx]).Span.End) := by
                  rw [hgetj]
                  show t.Span.End.kle ((comments.get ⟨cIdx, hclt⟩).Span.End)
                  rw [hceq]
                  exact hinside.2
                exact Position.kle_trans hes (Position.kle_trans hwfj hj2)
          · exact hltk
        · intro hmem
          rcases List.mem_append.mp hmem with hm1 | hm2
          · rcases List.mem_append.mp hm1 with hma | hmb
            · rcases gapStep_fst_mem sourceLines tokens comments tIdx cIdx
                cursor inCode acc _ hma with h | h | ⟨s, h⟩
              · exact hacc h
              · exact Piece.noConfusion h
              · exact Piece.noConfusion h
            · by_cases hflag : (gapStep sourceLines tokens comments tIdx cIdx
                  cursor inCode acc).2.2
              · rw [if_pos hflag] at hmb
                exact Piece.noConfusion (List.mem_singleton.mp hmb)
              · rw [if_neg hflag] at hmb
                exact absurd hmb (List.not_mem_nil _)
          · exact Piece.noConfusion (List.mem_singleton.mp hm2)
      · rw [dif_neg hclt] at hok
        exact Except.noConfusion hok
    rw [if_neg hcc] at hok
    by_cases htc : Position.Compare cur1 (getNextTokenStart tokens tIdx) = 0
    · rw [if_pos htc] at hok
      by_cases htlt : tIdx < tokens.length
      · rw [dif_pos htlt] at hok
        have hnts : getNextTokenStart tokens tIdx =
            (tokens[tIdx]).Span.Start := by
          unfold getNextTokenStart
          rw [dif_pos htlt]
        have hc1eq : cur1 = (tokens[tIdx]).Span.Start := by
          have h := (Position.compare_eq_zero_iff _ _).mp htc
          rw [hnts] at h
          exact h
        have hnotinside : ∀ k (hk : k < comments.length), cIdx ≤ k →
            ¬ InsideComment (tokens[tIdx]) (comments[k]) := by
          intro k hk hkge hins
          apply hcc
          have hclt2 : cIdx < comments.length := lt_of_le_of_lt hkge hk
          have hncs : getNextCommentStart comments cIdx =
              (comments[cIdx]).Span.Start := by
            unfold getNextCommentStart
            rw [dif_pos hclt2]
          have hch1 : cur1.kle ((comments[cIdx]).Span.Start) :=
            hc1I3 cIdx hclt2 (le_refl _)
          have hch2 : ((comments[cIdx]).Span.Start).kle
              ((comments[k]).Span.Start) :=
            start_mono (fun cm => cm.Span) comments hcomSep hcomWf cIdx k
              hkge hk
          have hch3 : ((comments[k]).Span.Start).kle cur1 := by
            rw [hc1eq]
            exact hins.1
          have hq : cur1 = (comments[cIdx]).Span.Start :=
            Position.kle_antisymm hch1 (Position.kle_trans hch2 hch3)
          constructor
          · rw [hncs, hq]
            exact Position.compare_self _
          · rw [hncs, hnts, ← hq, hc1eq]
            exact le_of_eq (Position.compare_self _)
        have hne : tokens[tIdx] ≠ t := by
          intro heqt
          exact hnotinside kc hkc (hI4 tIdx htlt (le_refl _) heqt)
            (by rw [heqt]; exact hinside)
        refine ih _ _ _ _ _ ?_ ?_ ?_ ?_ ?_ ?_ ps flag hok
        · omega
        · exact hcle
        · intro j hj hjge
          exact sep_end_start (fun tk => tk.Span) tokens htokSep tIdx j
            (by omega) hj
        · intro k hk hkge
          rcases halign (tokens[tIdx]) (tokens.getElem_mem htlt)
              (comments[k]) (comments.getElem_mem hk) with hins | hd1 | hd2
          · exact absurd hins (hnotinside k hk hkge)
          · exact hd1
          · exfalso
            apply hcc
            have hclt2 : cIdx < comments.length := lt_of_le_of_lt hkge hk
            have hncs : getNextCommentStart comments cIdx =
                (comments[cIdx]).Span.Start := by
              unfold getNextCommentStart
              rw [dif_pos hclt2]
            have hch1 : cur1.kle ((comments[cIdx]).Span.Start) :=
              hc1I3 cIdx hclt2 (le_refl _)
            have hch2 : ((comments[cIdx]).Span.Start).kle
                ((comments[k]).Span.Start) :=
              start_mono (fun cm => cm.Span) comments hcomSep hcomWf cIdx k
                hkge hk
            have hch3 : ((comments[k]).Span.Start).kle cur1 := by
              rw [hc1eq]
              exact Position.kle_trans (hcomWf (comments[k])
                (comments.getElem_mem hk)) hd2
            have hq : cur1 = (comments[cIdx]).Span.Start :=
              Position.kle_antisymm hch1 (Position.kle_trans hch2 hch3)
            constructor
            · rw [hncs, hq]
              exact Position.compare_self _
            · rw [hncs, hnts, ← hq, hc1eq]
              exact le_of_eq (Position.compare_self _)
        · intro j hj hjge heqt
          exact hI4 j hj (by omega) heqt
        · intro hmem
          rcases List.mem_append.mp hmem with hm1 | hm2
          · rcases List.mem_append.mp hm1 with hma | hmb
            · rcases gapStep_fst_mem sourceLines tokens comments tIdx cIdx
                cursor inCode acc _ hma with h | h | ⟨s, h⟩
              · exact hacc h
              · exact Piece.noConfusion h
              · exact Piece.noConfusion h
            · by_cases hflag : (gapStep sourceLines tokens comments tIdx cIdx
                  cursor inCode acc).2.2
              · rw [if_pos hflag] at hmb
                exact absurd hmb (List.not_mem_nil _)
              · rw [if_neg hflag] at hmb
                exact Piece.noConfusion (List.mem_singleton.mp hmb)
          · have h := List.mem_singleton.mp hm2
            exact hne (Piece.tokenRun.inj h).symm
      · rw [dif_neg htlt] at hok
        exact Except.noConfusion hok
    rw [if_neg htc] at hok
    by_cases hend : 0 ≤ Position.Compare cur1 (fileEndPos sourceLines)
    · rw [if_pos hend] at hok
      have hpair := Except.ok.inj hok
      rw [Prod.mk.injEq] at hpair
      rw [← hpair.1]
      intro hmem
      rcases gapStep_fst_mem sourceLines tokens comments tIdx cIdx
          cursor inCode acc _ hmem with h | h | ⟨s, h⟩
      · exact hacc h
      · exact Piece.noConfusion h
      · exact Piece.noConfusion h
    rw [if_neg hend] at hok
    exfalso
    have hc1fe : cur1.klt (fileEndPos sourceLines) :=
      (Position.compare_lt_iff _ _).mp (by omega)
    have hfeklt := fileEndPos_klt_sentinel sourceLines hlen
    have hgle : (gapEndOf sourceLines tokens comments tIdx cIdx).kle cur1 := by
      rcases hcases with ⟨hq, _⟩ | ⟨hq, hC⟩
      · rw [hq]
        exact Position.kle_refl _
      · rw [hq]
        exact Position.not_klt_iff.mp
          (fun hk => hC ((Position.compare_lt_iff _ _).mpr hk))
    revert hgle
    simp only [gapEndOf]
    split
    · -- gapEnd1 = next token start
      rename_i h1
      split
      · -- gap end = next comment start
        rename_i h2
        intro hgle
        have hclt2 : cIdx < comments.length := by
          by_contra hno
          rw [getNextCommentStart_sentinel comments cIdx hno] at h2
          have hs1 := Position.klt_trans ((Position.compare_lt_iff _ _).mp h2)
            ((Position.compare_lt_iff _ _).mp h1)
          exact Position.klt_irrefl _ (Position.klt_trans hs1 hfeklt)
        apply hcc
        have hncs : getNextCommentStart comments cIdx =
            (comments[cIdx]).Span.Start := by
          unfold getNextCommentStart
          rw [dif_pos hclt2]
        have hch1 : cur1.kle ((comments[cIdx]).Span.Start) :=
          hc1I3 cIdx hclt2 (le_refl _)
        rw [← hncs] at hch1
        constructor
        · exact (Position.compare_eq_zero_iff _ _).mpr
            (Position.kle_antisymm hch1 hgle)
        · exact (Position.compare_le_iff _ _).mpr
            (Position.kle_of_klt ((Position.compare_lt_iff _ _).mp h2))
      · -- gap end = next token start
        intro hgle
        have htlt2 : tIdx < tokens.length := by
          by_contra hno
          rw [getNextTokenStart_sentinel tokens tIdx hno] at hgle
          exact Position.klt_irrefl _ (Position.klt_of_kle_of_klt hgle
            (Position.klt_trans hc1fe hfeklt))
        apply htc
        have hnts : getNextTokenStart tokens tIdx =
            (tokens[tIdx]).Span.Start := by
          unfold getNextTokenStart
          rw [dif_pos htlt2]
        have hch1 : cur1.kle ((tokens[tIdx]).Span.Start) :=
          hc1I2 tIdx htlt2 (le_refl _)
        rw [← hnts] at hch1
        exact (Position.compare_eq_zero_iff _ _).mpr
          (Position.kle_antisymm hch1 hgle)
    · -- gapEnd1 = end of buffer
      rename_i h1
      split
      · -- gap end = next comment start
        rename_i h2
        intro hgle
        have hclt2 : cIdx < comments.length := by
          by_contra hno
          rw [getNextCommentStart_sentinel comments cIdx hno] at h2
          exact Position.klt_irrefl _ (Position.klt_trans
            ((Position.compare_lt_iff _ _).mp h2) hfeklt)
        apply hcc
        have hncs : getNextCommentStart comments cIdx =
            (comments[cIdx]).Span.Start := by
          unfold getNextCommentStart
          rw [dif_pos hclt2]
        have hch1 : cur1.kle ((comments[cIdx]).Span.Start) :=
          hc1I3 cIdx hclt2 (le_refl _)
        rw [← hncs] at hch1
        constructor
        · exact (Position.compare_eq_zero_iff _ _).mpr
            (Position.kle_antisymm hch1 hgle)
        · have hfle : (fileEndPos sourceLines).kle
              (getNextTokenStart tokens tIdx) :=
            Position.not_klt_iff.mp
              (fun hk => h1 ((Position.compare_lt_iff _ _).mpr hk))
          exact (Position.compare_le_iff _ _).mpr
            (Position.kle_trans (Position.kle_of_klt
              ((Position.compare_lt_iff _ _).mp h2)) hfle)
      · -- gap end = end of buffer: contradicts cursor before end of buffer
        intro hgle
        exact Position.klt_irrefl _ (Position.klt_of_kle_of_klt hgle hc1fe)

/-- Claim C4 (amended): for a sorted, pairwise non-overlapping,
well-formed and non-negative token list and a sorted, internally
non-overlapping, well-formed and non-negative comment list over a buffer
of at most 999999 lines, such that no token partially overlaps a comment
(each token is fully inside or fully disjoint from each comment), a
token whose span lies fully inside some comment span never produces a
rendered Run in the output of GenerateMDX: when a comment starts at the
cursor the comment takes priority over any token starting there, its
content is emitted as prose, the cursor advances to the comment end and
every pending token ending at or before the new cursor is skipped
without rendering.  (Without the no-partial-overlap condition the claim
fails: generateMDX_comment_priority_counterexample has a token
straddling the comment start, the cursor never lands on the comment
start, and a token fully inside the comment is rendered.) -/
theorem generateMDX_comment_priority (sourceLines : List (List Char))
    (tokens : List TokenInfo) (comments : List CommentInfo)
    (hlen : sourceLines.length ≤ 999999)
    (htokSep : tokens.Pairwise (fun a b => a.Span.End.kle b.Span.Start))
    (htokWf : ∀ tk ∈ tokens, tk.Span.Start.kle tk.Span.End)
    (htokNN : ∀ tk ∈ tokens, SpanNonneg tk.Span)
    (hcomSep : comments.Pairwise (fun a b => a.Span.End.kle b.Span.Start))
    (hcomWf : ∀ cm ∈ comments, cm.Span.Start.kle cm.Span.End)
    (hcomNN : ∀ cm ∈ comments, SpanNonneg cm.Span)
    (halign : NoPartialOverlap tokens comments)
    (t : TokenInfo) (c : CommentInfo) (hc : c ∈ comments)
    (hinside : InsideComment t c)
    (ps : List Piece)
    (hok : GenerateMDX sourceLines tokens comments = .ok ps) :
    Piece.tokenRun t ∉ ps := by
  obtain ⟨kc, hkc, hck⟩ := List.getElem_of_mem hc
  unfold GenerateMDX at hok
  cases hloop : mdxLoop sourceLines tokens comments
      (mdxFuel sourceLines tokens comments) ⟨0, 0⟩ 0 0 false [] with
  | error e =>
    rw [hloop] at hok
    exact Except.noConfusion hok
  | ok r =>
    obtain ⟨ps0, flag⟩ := r
    rw [hloop] at hok
    have hpieces := Except.ok.inj hok
    have hmain := mdxLoop_no_inside_run sourceLines tokens comments hlen
      htokSep htokWf hcomSep hcomWf halign t kc hkc
      (by rw [hck]; exact hinside)
      (mdxFuel sourceLines tokens comments) ⟨0, 0⟩ 0 0 false []
      (Nat.zero_le _) (Nat.zero_le _)
      (fun j hj _ => by
        have hs := htokNN (tokens[j]) (tokens.getElem_mem hj)
        exact kle_of_nonneg _ hs.1 hs.2.1)
      (fun k hk _ => by
        have hs := hcomNN (comments[k]) (comments.getElem_mem hk)
        exact kle_of_nonneg _ hs.1 hs.2.1)
      (fun j hj _ _ => Nat.zero_le kc)
      (List.not_mem_nil _) ps0 flag hloop
    rw [← hpieces]
    intro hmem
    rcases List.mem_append.mp hmem with hm1 | hm2
    · exact hmain hm1
    · by_cases hflag : flag = true
      · rw [if_pos hflag] at hm2
        exact Piece.noConfusion (List.mem_singleton.mp hm2)
      · rw [if_neg hflag] at hm2
        exact absurd hm2 (List.not_mem_nil _)

/-- Witness data for the comment priority theorem: one token fully
inside one comment over a single-line buffer. -/
def witPrioLines : List (List Char) := [('a' :: "bcdefgh".data)]

def witPrioTok : TokenInfo := mkTok 2 4 "w" false false "" []

def witPrioCom : CommentInfo := { Content := "C", Span := ⟨⟨0, 1⟩, ⟨0, 6⟩⟩ }

/-- Witness for generateMDX_comment_priority at a concrete input: the
inside token is skipped, the comment is rendered as prose, and no run
for the token appears. -/
theorem generateMDX_comment_priority_witness :
    witPrioLines.length ≤ 999999 ∧
    [witPrioTok].Pairwise (fun a b => a.Span.End.kle b.Span.Start) ∧
    (∀ tk ∈ [witPrioTok], tk.Span.Start.kle tk.Span.End) ∧
    (∀ tk ∈ [witPrioTok], SpanNonneg tk.Span) ∧
    [witPrioCom].Pairwise (fun a b => a.Span.End.kle b.Span.Start) ∧
    (∀ cm ∈ [witPrioCom], cm.Span.Start.kle cm.Span.End) ∧
    (∀ cm ∈ [witPrioCom], SpanNonneg cm.Span) ∧
    NoPartialOverlap [witPrioTok] [witPrioCom] ∧
    witPrioCom ∈ [witPrioCom] ∧
    InsideComment witPrioTok witPrioCom ∧
    GenerateMDX witPrioLines [witPrioTok] [witPrioCom] =
      .ok [Piece.blockOpen, Piece.text ['a'], Piece.blockClose,
        Piece.prose "C", Piece.blockOpen, Piece.text ['g', 'h'],
        Piece.blockClose] ∧
    Piece.tokenRun witPrioTok ∉
      [Piece.blockOpen, Piece.text ['a'], Piece.blockClose,
        Piece.prose "C", Piece.blockOpen, Piece.text ['g', 'h'],
        Piece.blockClose] :=
  ⟨by decide, by decide, by decide, by decide, by decide, by decide,
   by decide, by decide, by decide, by decide, by decide,
   generateMDX_comment_priority witPrioLines [witPrioTok] [witPrioCom]
     (by decide) (by decide) (by decide) (by decide) (by decide) (by decide)
     (by decide) (by decide) witPrioTok witPrioCom (by decide) (by decide)
     [Piece.blockOpen, Piece.text ['a'], Piece.blockClose,
       Piece.prose "C", Piece.blockOpen, Piece.text ['g', 'h'],
       Piece.blockClose] (by decide)⟩

/-- Witness for generateMDX_total at a concrete input: a one-line buffer
with one well-formed token and no comments. -/
theorem generateMDX_total_witness :
    [['a']].length ≤ 999999 ∧
    (∀ t ∈ [mkTok 0 1 "t" false false "" []],
      SpanNonneg t.Span ∧ t.Span.End ≠ sentinelPos) ∧
    (∀ c ∈ ([] : List CommentInfo),
      SpanNonneg c.Span ∧ c.Span.End ≠ sentinelPos) ∧
    ∃ ps, GenerateMDX [['a']] [mkTok 0 1 "t" false false "" []] [] = .ok ps :=
  ⟨by decide, by decide, by decide,
    generateMDX_total [['a']] [mkTok 0 1 "t" false false "" []] []
      (by decide) (by decide) (by decide)⟩

/-! ## Assembler text conservation for token-only input (claim C5) -/

/-- A position inside the buffer: line in range and column within the
rune length of its line. -/
def ValidPos (sourceLines : List (List Char)) (p : Position) : Prop :=
  0 ≤ p.Line ∧ p.Line < (sourceLines.length : Int) ∧
  0 ≤ p.Character ∧
  p.Character ≤ ((lineAt sourceLines p.Line).length : Int)

instance (sourceLines : List (List Char)) (p : Position) :
    Decidable (ValidPos sourceLines p) := by
  unfold ValidPos; exact inferInstance

/-- Normal form of the extractor on valid spans, with Nat indices: a
single-line slice, or first line tail, newline-terminated middle lines
and last line head. -/
def textBetween (sourceLines : List (List Char)) (al ac bl bc : Nat) :
    List Char :=
  if al = bl then ((sourceLines.getD al []).drop ac).take (bc - ac)
  else
    (sourceLines.getD al []).drop ac ++ ['\n'] ++
    (((sourceLines.drop (al + 1)).take (bl - (al + 1))).map
      (fun l => l ++ ['\n'])).flatten ++
    (sourceLines.getD bl []).take bc

/-- On a valid, well-ordered span the extractor computes the normal
form: no column reset fires and no line is clamped. -/
theorem getSourceFromSpan_norm (sourceLines : List (List Char))
    (a b : Position) (ha : ValidPos sourceLines a)
    (hb : ValidPos sourceLines b) (hab : a.kle b) :
    getSourceFromSpan sourceLines ⟨a, b⟩ =
      textBetween sourceLines a.Line.toNat a.Character.toNat
        b.Line.toNat b.Character.toNat := by
  obtain ⟨ha1, ha2, ha3, ha4⟩ := ha
  obtain ⟨hb1, hb2, hb3, hb4⟩ := hb
  simp only [lineAt] at ha4 hb4
  unfold getSourceFromSpan textBetween
  dsimp only
  simp only [lineAt]
  rw [if_neg (show ¬ (a.Line < 0 ∨ b.Line < 0 ∨
    (sourceLines.length : Int) ≤ a.Line) by omega)]
  rw [if_neg (show ¬ (sourceLines.length : Int) ≤ b.Line by omega)]
  by_cases hline : a.Line = b.Line
  · rw [if_pos hline, if_pos (show a.Line.toNat = b.Line.toNat by omega)]
    have hb4a : b.Character ≤
        ((sourceLines.getD a.Line.toNat []).length : Int) := by
      rw [hline]
      exact hb4
    rw [if_neg (show ¬ (a.Character < 0 ∨
      ((sourceLines.getD a.Line.toNat []).length : Int) < a.Character)
      by omega)]
    rw [if_neg (show ¬ (b.Character < 0 ∨
      ((sourceLines.getD a.Line.toNat []).length : Int) < b.Character)
      by omega)]
    have hcc : a.Character ≤ b.Character := by
      rcases hab with h | ⟨h2, h⟩
      · omega
      · exact h
    by_cases hle : b.Character ≤ a.Character
    · rw [if_pos hle]
      have h0 : b.Character.toNat - a.Character.toNat = 0 := by omega
      rw [h0]
      simp
    · rw [if_neg hle]
      have h1 : (b.Character - a.Character).toNat =
          b.Character.toNat - a.Character.toNat := by omega
      rw [h1]
  · have hlt : a.Line < b.Line := by
      rcases hab with h | ⟨h, h2⟩
      · exact h
      · exact absurd h hline
    rw [if_neg hline, if_neg (show ¬ a.Line.toNat = b.Line.toNat by omega)]
    have hmax : max a.Character 0 = a.Character := by omega
    rw [hmax, if_pos ha4]
    have hminmax : min (max b.Character 0)
        ((sourceLines.getD b.Line.toNat []).length : Int) = b.Character := by
      omega
    rw [hminmax]
    have hi1 : (a.Line + 1).toNat = a.Line.toNat + 1 := by omega
    have hi2 : (b.Line - a.Line - 1).toNat =
        b.Line.toNat - (a.Line.toNat + 1) := by omega
    rw [hi1, hi2]
    by_cases hbc : (0 : Int) < b.Character
    · rw [if_pos hbc]
    · rw [if_neg hbc]
      have h0 : b.Character.toNat = 0 := by omega
      rw [h0]
      simp

/-- Merging two adjacent list slices around the element between them. -/
theorem slice_merge {α : Type} (l : List α) (d : α) (x y z : Nat)
    (hxy : x ≤ y) (hyz : y < z) (hy : y < l.length) :
    (l.drop x).take (y - x) ++
      (l.getD y d :: (l.drop (y + 1)).take (z - (y + 1))) =
    (l.drop x).take (z - x) := by
  have hgd : l.getD y d = l[y] := List.getD_eq_getElem l d hy
  have hdy : l.drop y = l[y] :: l.drop (y + 1) := List.drop_eq_getElem_cons hy
  have hdd : (l.drop x).drop (y - x) = l.drop y := by
    rw [List.drop_drop]
    congr 1
    omega
  have hta := List.take_add (l.drop x) (y - x) (z - y)
  rw [hdd] at hta
  have hcons : (l.drop y).take (z - y) =
      l[y] :: (l.drop (y + 1)).take (z - (y + 1)) := by
    rw [hdy]
    have hzy : z - y = (z - (y + 1)) + 1 := by omega
    rw [hzy, List.take_succ_cons]
  rw [hcons] at hta
  have harith : (y - x) + (z - y) = z - x := by omega
  rw [harith] at hta
  rw [hgd]
  exact hta.symm

/-- Additivity of the extractor normal form: adjacent spans concatenate. -/
theorem textBetween_append (sourceLines : List (List Char))
    (al ac bl bc cl cc : Nat)
    (h1 : al ≤ bl) (h2 : bl ≤ cl)
    (h3 : al = bl → ac ≤ bc) (h4 : bl = cl → bc ≤ cc)
    (h5 : bl < sourceLines.length) :
    textBetween sourceLines al ac bl bc ++
      textBetween sourceLines bl bc cl cc =
    textBetween sourceLines al ac cl cc := by
  unfold textBetween
  by_cases hab : al = bl
  · subst hab
    have hacbc : ac ≤ bc := h3 rfl
    by_cases hac2 : al = cl
    · subst hac2
      have hbccc : bc ≤ cc := h4 rfl
      rw [if_pos rfl, if_pos rfl, if_pos rfl]
      have hd : ((sourceLines.getD al []).drop ac).drop (bc - ac) =
          (sourceLines.getD al []).drop bc := by
        rw [List.drop_drop]
        congr 1
        omega
      calc ((sourceLines.getD al []).drop ac).take (bc - ac) ++
            ((sourceLines.getD al []).drop bc).take (cc - bc)
          = ((sourceLines.getD al []).drop ac).take (bc - ac) ++
            (((sourceLines.getD al []).drop ac).drop (bc - ac)).take
              (cc - bc) := by rw [hd]
        _ = ((sourceLines.getD al []).drop ac).take ((bc - ac) + (cc - bc)) :=
            (List.take_add _ _ _).symm
        _ = ((sourceLines.getD al []).drop ac).take (cc - ac) := by
            congr 1
            omega
    · rw [if_pos rfl, if_neg hac2, if_neg hac2]
      have hsplit : (sourceLines.getD al []).drop ac =
          ((sourceLines.getD al []).drop ac).take (bc - ac) ++
          (sourceLines.getD al []).drop bc := by
        conv_lhs => rw [← List.take_append_drop (bc - ac)
          ((sourceLines.getD al []).drop ac)]
        rw [List.drop_drop]
        congr 2
        omega
      conv_rhs => rw [hsplit]
      simp only [List.append_assoc]
  · have hlt : al < bl := by omega
    by_cases hbc2 : bl = cl
    · subst hbc2
      have hbccc : bc ≤ cc := h4 rfl
      rw [if_neg hab, if_pos rfl, if_neg hab]
      have hkey : (sourceLines.getD bl []).take bc ++
          ((sourceLines.getD bl []).drop bc).take (cc - bc) =
          (sourceLines.getD bl []).take cc := by
        rw [← List.take_add]
        congr 1
        omega
      conv_rhs => rw [← hkey]
      simp only [List.append_assoc]
    · have hlt2 : bl < cl := by omega
      rw [if_neg hab, if_neg hbc2, if_neg (show ¬ al = cl by omega)]
      have hs := slice_merge sourceLines [] (al + 1) bl cl (by omega) hlt2 h5
      have hM : (((sourceLines.drop (al + 1)).take (cl - (al + 1))).map
            (fun l => l ++ ['\n'])).flatten =
          (((sourceLines.drop (al + 1)).take (bl - (al + 1))).map
            (fun l => l ++ ['\n'])).flatten ++
          ((sourceLines.getD bl [] ++ ['\n']) ++
            (((sourceLines.drop (bl + 1)).take (cl - (bl + 1))).map
              (fun l => l ++ ['\n'])).flatten) := by
        rw [← hs]
        simp only [List.map_append, List.map_cons, List.flatten_append,
          List.flatten_cons]
      rw [hM]
      have hTBD : (sourceLines.getD bl []).take bc ++
          ((sourceLines.getD bl []).drop bc ++ ['\n']) =
          sourceLines.getD bl [] ++ ['\n'] := by
        rw [← List.append_assoc, List.take_append_drop]
      conv_rhs => rw [← hTBD]
      simp only [List.append_assoc]

/-- Adjacent extractor spans over valid positions concatenate. -/
theorem getSourceFromSpan_split (sourceLines : List (List Char))
    (a b c : Position) (ha : ValidPos sourceLines a)
    (hb : ValidPos sourceLines b) (hc : ValidPos sourceLines c)
    (hab : a.kle b) (hbc : b.kle c) :
    getSourceFromSpan sourceLines ⟨a, b⟩ ++
      getSourceFromSpan sourceLines ⟨b, c⟩ =
    getSourceFromSpan sourceLines ⟨a, c⟩ := by
  rw [getSourceFromSpan_norm sourceLines a b ha hb hab,
    getSourceFromSpan_norm sourceLines b c hb hc hbc,
    getSourceFromSpan_norm sourceLines a c ha hc
      (Position.kle_trans hab hbc)]
  have ha1 := ha.1
  have hb1 := hb.1
  have hb2 := hb.2.1
  have hc1 := hc.1
  apply textBetween_append
  · rcases hab with h | ⟨h, h2⟩ <;> omega
  · rcases hbc with h | ⟨h, h2⟩ <;> omega
  · intro h
    rcases hab with hx | ⟨hx, hx2⟩ <;> omega
  · intro h
    rcases hbc with hx | ⟨hx, hx2⟩ <;> omega
  · omega

/-- A zero-length span over a valid position extracts nothing. -/
theorem getSourceFromSpan_self (sourceLines : List (List Char))
    (p : Position) (hp : ValidPos sourceLines p) :
    getSourceFromSpan sourceLines ⟨p, p⟩ = [] := by
  rw [getSourceFromSpan_norm sourceLines p p hp hp (Position.kle_refl p)]
  simp [textBetween]

/-- The end-of-buffer position of a non-empty buffer is valid. -/
theorem validPos_fileEnd (sourceLines : List (List Char))
    (h : 0 < sourceLines.length) :
    ValidPos sourceLines (fileEndPos sourceLines) := by
  unfold ValidPos fileEndPos
  rw [if_pos h]
  dsimp only
  refine ⟨by omega, by omega, by omega, le_refl _⟩

/-- Every valid position lies at or before the end of buffer. -/
theorem validPos_kle_fileEnd (sourceLines : List (List Char))
    (p : Position) (hp : ValidPos sourceLines p) :
    p.kle (fileEndPos sourceLines) := by
  obtain ⟨h1, h2, h3, h4⟩ := hp
  have hlen : 0 < sourceLines.length := by omega
  unfold fileEndPos
  rw [if_pos hlen]
  unfold Position.kle
  dsimp only
  by_cases hl : p.Line < (sourceLines.length : Int) - 1
  · exact Or.inl hl
  · right
    have heq : p.Line = (sourceLines.length : Int) - 1 := by omega
    refine ⟨heq, ?_⟩
    rw [heq] at h4
    exact h4

/-- A valid position at or past the end of buffer is the end of
buffer. -/
theorem validPos_eq_fileEnd (sourceLines : List (List Char))
    (p : Position) (hp : ValidPos sourceLines p)
    (h : (fileEndPos sourceLines).kle p) : p = fileEndPos sourceLines := by
  have h2 := validPos_kle_fileEnd sourceLines p hp
  exact Position.kle_antisymm h2 h

/-- The literal text a piece carries: text runs carry their characters,
token runs carry the extractor text of their span, wrappers and prose
carry none (prose is comment content, not buffer code). -/
def pieceText (sourceLines : List (List Char)) : Piece → List Char
  | Piece.text s => s
  | Piece.tokenRun tk => getSourceFromSpan sourceLines tk.Span
  | _ => []

/-- The concatenated literal text of an emitted piece list. -/
def piecesText (sourceLines : List (List Char)) (ps : List Piece) :
    List Char :=
  (ps.map (pieceText sourceLines)).flatten

theorem piecesText_append (sourceLines : List (List Char))
    (xs ys : List Piece) :
    piecesText sourceLines (xs ++ ys) =
      piecesText sourceLines xs ++ piecesText sourceLines ys := by
  simp [piecesText]

/-- The next stop of the assembler with no comments: the next token
start, or the end of buffer once tokens are exhausted. -/
def nextStop (sourceLines : List (List Char)) (tokens : List TokenInfo)
    (tIdx : Nat) : Position :=
  if h : tIdx < tokens.length then (tokens[tIdx]).Span.Start
  else fileEndPos sourceLines

/-- The literal text the gap step appends: with no comment pending to
trim against, exactly the extractor text of the gap (left trimmed
outside a code block), or nothing when the cursor is at or past the gap
end. -/
theorem gapStep_fst_text (sourceLines : List (List Char))
    (tokens : List TokenInfo) (tIdx : Nat) (cursor : Position)
    (inCode : Bool) (acc : List Piece)
    (hne : Position.Compare (gapEndOf sourceLines tokens [] tIdx 0)
      (getNextCommentStart [] 0) ≠ 0) :
    piecesText sourceLines
      (gapStep sourceLines tokens [] tIdx 0 cursor inCode acc).1 =
    piecesText sourceLines acc ++
      (if Position.Compare cursor
          (gapEndOf sourceLines tokens [] tIdx 0) < 0 then
        (if inCode then
          getSourceFromSpan sourceLines
            ⟨cursor, gapEndOf sourceLines tokens [] tIdx 0⟩
        else
          trimLeftGo (getSourceFromSpan sourceLines
            ⟨cursor, gapEndOf sourceLines tokens [] tIdx 0⟩))
      else []) := by
  simp only [gapStep]
  by_cases hgap : Position.Compare cursor
      (gapEndOf sourceLines tokens [] tIdx 0) < 0
  · rw [if_pos hgap, if_pos hgap, if_neg hne]
    by_cases hC : (if inCode then
        getSourceFromSpan sourceLines
          ⟨cursor, gapEndOf sourceLines tokens [] tIdx 0⟩
      else trimLeftGo (getSourceFromSpan sourceLines
        ⟨cursor, gapEndOf sourceLines tokens [] tIdx 0⟩)) = []
    · rw [if_neg (fun hcon => hcon hC)]
      dsimp only
      rw [hC]
      simp
    · rw [if_pos hC]
      dsimp only
      by_cases hic : inCode
      · simp [piecesText, pieceText, hic]
      · simp [piecesText, pieceText, hic]
  · rw [if_neg hgap, if_neg hgap]
    simp

/-- Conservation loop invariant for token-only input: whatever text the
loop still has to emit is the text of the remaining buffer, with the gap
up to the next stop (next token start, or end of buffer) left trimmed
whenever no code block is open. -/
theorem mdxLoop_content (sourceLines : List (List Char))
    (tokens : List TokenInfo)
    (hlen : sourceLines.length ≤ 999999)
    (htokSep : tokens.Pairwise (fun a b => a.Span.End.kle b.Span.Start))
    (htokWf : ∀ tk ∈ tokens, tk.Span.Start.kle tk.Span.End)
    (htokV : ∀ tk ∈ tokens, ValidPos sourceLines tk.Span.Start ∧
      ValidPos sourceLines tk.Span.End) :
    ∀ (fuel : Nat) (cursor : Position) (tIdx : Nat) (inCode : Bool)
      (acc : List Piece),
      tIdx ≤ tokens.length →
      ValidPos sourceLines cursor →
      (∀ j (hj : j < tokens.length), tIdx ≤ j →
        cursor.kle (tokens[j]).Span.Start) →
      ∀ ps flag,
        mdxLoop sourceLines tokens [] fuel cursor tIdx 0 inCode acc =
          .ok (ps, flag) →
        piecesText sourceLines ps =
          piecesText sourceLines acc ++
          (if inCode then
            getSourceFromSpan sourceLines ⟨cursor, fileEndPos sourceLines⟩
          else
            trimLeftGo (getSourceFromSpan sourceLines
              ⟨cursor, nextStop sourceLines tokens tIdx⟩) ++
            getSourceFromSpan sourceLines
              ⟨nextStop sourceLines tokens tIdx,
                fileEndPos sourceLines⟩) := by
  intro fuel
  induction fuel with
  | zero =>
    intro cursor tIdx inCode acc _ _ _ ps flag hok
    exact Except.noConfusion hok
  | succ n ih =>
    intro cursor tIdx inCode acc htle hcv hI2 ps flag hok
    have hlpos : 0 < sourceLines.length := by
      have h1 := hcv.1
      have h2 := hcv.2.1
      omega
    have hfeV := validPos_fileEnd sourceLines hlpos
    have hfeklt := fileEndPos_klt_sentinel sourceLines hlen
    have hncs : getNextCommentStart ([] : List CommentInfo) 0 =
        sentinelPos := getNextCommentStart_sentinel [] 0 (by simp)
    have hcfe := validPos_kle_fileEnd sourceLines cursor hcv
    have hgefe := gapEndOf_kle_fileEnd sourceLines tokens [] tIdx 0
    have hgene : Position.Compare (gapEndOf sourceLines tokens [] tIdx 0)
        (getNextCommentStart [] 0) ≠ 0 := by
      rw [hncs]
      intro h
      exact Position.ne_of_klt (Position.klt_of_kle_of_klt hgefe hfeklt)
        ((Position.compare_eq_zero_iff _ _).mp h)
    rw [mdxLoop] at hok
    dsimp only at hok
    rw [gapStep_snd] at hok
    by_cases hstop : 0 ≤ Position.Compare cursor (fileEndPos sourceLines) ∧
        tokens.length ≤ tIdx ∧ ([] : List CommentInfo).length ≤ 0
    · rw [if_pos hstop] at hok
      have hpair := Except.ok.inj hok
      rw [Prod.mk.injEq] at hpair
      rw [← hpair.1]
      have hceq : cursor = fileEndPos sourceLines :=
        validPos_eq_fileEnd sourceLines cursor hcv
          ((Position.compare_ge_iff _ _).mp hstop.1)
      have hns : nextStop sourceLines tokens tIdx =
          fileEndPos sourceLines := by
        unfold nextStop
        rw [dif_neg (by omega)]
      rw [hceq, hns, getSourceFromSpan_self sourceLines _ hfeV]
      simp [trimLeftGo]
    rw [if_neg hstop] at hok
    have hccfalse : ¬ (Position.Compare (if Position.Compare cursor
          (gapEndOf sourceLines tokens [] tIdx 0) < 0 then
          gapEndOf sourceLines tokens [] tIdx 0 else cursor)
          (getNextCommentStart [] 0) = 0 ∧
        Position.Compare (getNextCommentStart [] 0)
          (getNextTokenStart tokens tIdx) ≤ 0) := by
      rintro ⟨h1, -⟩
      rw [hncs] at h1
      have hq : (if Position.Compare cursor
          (gapEndOf sourceLines tokens [] tIdx 0) < 0 then
          gapEndOf sourceLines tokens [] tIdx 0 else cursor).kle
          (fileEndPos sourceLines) := by
        split
        · exact hgefe
        · exact hcfe
      exact Position.ne_of_klt (Position.klt_of_kle_of_klt hq hfeklt)
        ((Position.compare_eq_zero_iff _ _).mp h1)
    rw [if_neg hccfalse] at hok
    by_cases htlt : tIdx < tokens.length
    · -- a token is pending: the gap runs to its start and the token branch
      -- must fire
      have hmem : tokens[tIdx] ∈ tokens := tokens.getElem_mem htlt
      have hsV := (htokV _ hmem).1
      have heV := (htokV _ hmem).2
      have hwfT := htokWf _ hmem
      have hsfe := validPos_kle_fileEnd sourceLines _ hsV
      have hefe := validPos_kle_fileEnd sourceLines _ heV
      have hnts : getNextTokenStart tokens tIdx =
          (tokens[tIdx]).Span.Start := by
        unfold getNextTokenStart
        rw [dif_pos htlt]
      have hsnotlt2 : ¬ Position.Compare sentinelPos
          (if Position.Compare ((tokens[tIdx]).Span.Start)
              (fileEndPos sourceLines) < 0 then
            (tokens[tIdx]).Span.Start
          else fileEndPos sourceLines) < 0 := by
        have hq : (if Position.Compare ((tokens[tIdx]).Span.Start)
              (fileEndPos sourceLines) < 0 then
            (tokens[tIdx]).Span.Start
          else fileEndPos sourceLines).kle (fileEndPos sourceLines) := by
          split
          · exact hsfe
          · exact Position.kle_refl _
        intro h
        exact Position.klt_irrefl _ (Position.klt_trans
          (Position.klt_of_klt_of_kle ((Position.compare_lt_iff _ _).mp h) hq)
          hfeklt)
      have hgeq : gapEndOf sourceLines tokens [] tIdx 0 =
          (tokens[tIdx]).Span.Start := by
        simp only [gapEndOf, hnts, hncs]
        rw [if_neg hsnotlt2]
        split
        · rfl
        · rename_i h
          exact (Position.kle_antisymm hsfe (Position.not_klt_iff.mp
            (fun hk => h ((Position.compare_lt_iff _ _).mpr hk)))).symm
      rw [hnts, hgeq] at hok
      have hcs : cursor.kle ((tokens[tIdx]).Span.Start) :=
        hI2 tIdx htlt (le_refl _)
      have hns : nextStop sourceLines tokens tIdx =
          (tokens[tIdx]).Span.Start := by
        unfold nextStop
        rw [dif_pos htlt]
      have hsplit1 : getSourceFromSpan sourceLines
            ⟨(tokens[tIdx]).Span.Start, (tokens[tIdx]).Span.End⟩ ++
          getSourceFromSpan sourceLines
            ⟨(tokens[tIdx]).Span.End, fileEndPos sourceLines⟩ =
          getSourceFromSpan sourceLines
            ⟨(tokens[tIdx]).Span.Start, fileEndPos sourceLines⟩ :=
        getSourceFromSpan_split sourceLines _ _ _ hsV heV hfeV hwfT hefe
      have hX : ∀ b : Bool, piecesText sourceLines
          (if b then [] else [Piece.blockOpen]) = [] := by
        intro b
        cases b <;> simp [piecesText, pieceText]
      have hT : piecesText sourceLines [Piece.tokenRun (tokens[tIdx])] =
          getSourceFromSpan sourceLines
            ⟨(tokens[tIdx]).Span.Start, (tokens[tIdx]).Span.End⟩ := by
        simp [piecesText, pieceText]
      by_cases hgap : Position.Compare cursor ((tokens[tIdx]).Span.Start) < 0
      · rw [if_pos hgap] at hok
        rw [if_pos (Position.compare_self ((tokens[tIdx]).Span.Start))] at hok
        rw [dif_pos htlt] at hok
        have hrec := ih ((tokens[tIdx]).Span.End) (tIdx + 1) true _
          htlt heV
          (fun j hj hjge => sep_end_start (fun tk => tk.Span) tokens htokSep
            tIdx j (by omega) hj)
          ps flag hok
        simp only [eq_self_iff_true, if_true] at hrec
        rw [hrec, piecesText_append, piecesText_append,
          gapStep_fst_text sourceLines tokens tIdx cursor inCode acc hgene,
          hgeq, hX, hT, if_pos hgap, hns]
        by_cases hic : inCode
        · rw [if_pos hic, if_pos hic]
          have hsplit2 : getSourceFromSpan sourceLines
                ⟨cursor, (tokens[tIdx]).Span.Start⟩ ++
              getSourceFromSpan sourceLines
                ⟨(tokens[tIdx]).Span.Start, fileEndPos sourceLines⟩ =
              getSourceFromSpan sourceLines
                ⟨cursor, fileEndPos sourceLines⟩ :=
            getSourceFromSpan_split sourceLines _ _ _ hcv hsV hfeV hcs
              (Position.kle_trans hwfT hefe)
          conv_rhs => rw [← hsplit2, ← hsplit1]
          simp [List.append_assoc]
        · rw [if_neg hic, if_neg hic]
          conv_rhs => rw [← hsplit1]
          simp [List.append_assoc]
      · -- the cursor already sits at the token start
        have hceq : cursor = (tokens[tIdx]).Span.Start :=
          Position.kle_antisymm hcs (Position.not_klt_iff.mp
            (fun hk => hgap ((Position.compare_lt_iff _ _).mpr hk)))
        rw [if_neg hgap] at hok
        rw [if_pos ((Position.compare_eq_zero_iff _ _).mpr hceq)] at hok
        rw [dif_pos htlt] at hok
        have hrec := ih ((tokens[tIdx]).Span.End) (tIdx + 1) true _
          htlt heV
          (fun j hj hjge => sep_end_start (fun tk => tk.Span) tokens htokSep
            tIdx j (by omega) hj)
          ps flag hok
        simp only [eq_self_iff_true, if_true] at hrec
        rw [hrec, piecesText_append, piecesText_append,
          gapStep_fst_text sourceLines tokens tIdx cursor inCode acc hgene,
          hgeq, hX, hT, if_neg hgap, hns, hceq]
        rw [getSourceFromSpan_self sourceLines _ hsV]
        by_cases hic : inCode
        · rw [if_pos hic]
          conv_rhs => rw [← hsplit1]
          simp [List.append_assoc]
        · rw [if_neg hic]
          conv_rhs => rw [← hsplit1]
          simp [List.append_assoc, trimLeftGo]
    · -- tokens exhausted: the gap runs to the end of buffer and the loop
      -- stops
      have hnts2 : getNextTokenStart tokens tIdx = sentinelPos :=
        getNextTokenStart_sentinel tokens tIdx htlt
      have hsnotlt : ¬ Position.Compare sentinelPos
          (fileEndPos sourceLines) < 0 := by
        intro h
        exact Position.klt_irrefl _ (Position.klt_trans
          ((Position.compare_lt_iff _ _).mp h) hfeklt)
      have hgeq : gapEndOf sourceLines tokens [] tIdx 0 =
          fileEndPos sourceLines := by
        simp only [gapEndOf, hnts2, hncs]
        rw [if_neg hsnotlt, if_neg hsnotlt]
      rw [hnts2, hgeq] at hok
      have htcf : ¬ (Position.Compare (if Position.Compare cursor
          (fileEndPos sourceLines) < 0 then
          fileEndPos sourceLines else cursor) sentinelPos = 0) := by
        intro h
        have hq : (if Position.Compare cursor
            (fileEndPos sourceLines) < 0 then
            fileEndPos sourceLines else cursor).kle
            (fileEndPos sourceLines) := by
          split
          · exact Position.kle_refl _
          · exact hcfe
        exact Position.ne_of_klt (Position.klt_of_kle_of_klt hq hfeklt)
          ((Position.compare_eq_zero_iff _ _).mp h)
      rw [if_neg htcf] at hok
      have hns : nextStop sourceLines tokens tIdx =
          fileEndPos sourceLines := by
        unfold nextStop
        rw [dif_neg htlt]
      by_cases hgap : Position.Compare cursor (fileEndPos sourceLines) < 0
      · rw [if_pos hgap] at hok
        rw [if_pos (show 0 ≤ Position.Compare (fileEndPos sourceLines)
          (fileEndPos sourceLines) from by
            simp [Position.compare_self])] at hok
        have hpair := Except.ok.inj hok
        rw [Prod.mk.injEq] at hpair
        rw [← hpair.1]
        rw [gapStep_fst_text sourceLines tokens tIdx cursor inCode acc hgene,
          hgeq]
        rw [if_pos hgap]
        rw [hns, getSourceFromSpan_self sourceLines _ hfeV]
        by_cases hic : inCode
        · rw [if_pos hic, if_pos hic]
        · rw [if_neg hic, if_neg hic]
          simp
      · rw [if_neg hgap] at hok
        have hcfe0 : 0 ≤ Position.Compare cursor (fileEndPos sourceLines) := by
          omega
        rw [if_pos hcfe0] at hok
        have hpair := Except.ok.inj hok
        rw [Prod.mk.injEq] at hpair
        rw [← hpair.1]
        have hceq : cursor = fileEndPos sourceLines :=
          validPos_eq_fileEnd sourceLines cursor hcv
            ((Position.compare_ge_iff _ _).mp hcfe0)
        rw [gapStep_fst_text sourceLines tokens tIdx cursor inCode acc hgene,
          hgeq]
        rw [if_neg hgap]
        rw [hns, hceq, getSourceFromSpan_self sourceLines _ hfeV]
        simp [trimLeftGo]


/-- Claim C5 (amended): with an empty Comment list and a sorted,
non-overlapping, well-formed Token list whose span endpoints are valid
positions of a non-empty buffer, the concatenated literal text of the
pieces GenerateMDX emits (text runs and token runs; wrappers and prose
carry none) reproduces the buffer exactly, except that the leading gap
before the first stop is left trimmed.  In particular the buffer text is
conserved verbatim from the first token start on, and in full whenever a
token starts at the origin. -/
theorem generateMDX_conservation (sourceLines : List (List Char))
    (tokens : List TokenInfo)
    (hlen : sourceLines.length ≤ 999999)
    (hlpos : 0 < sourceLines.length)
    (htokSep : tokens.Pairwise (fun a b => a.Span.End.kle b.Span.Start))
    (htokWf : ∀ tk ∈ tokens, tk.Span.Start.kle tk.Span.End)
    (htokV : ∀ tk ∈ tokens, ValidPos sourceLines tk.Span.Start ∧
      ValidPos sourceLines tk.Span.End) :
    ∀ ps, GenerateMDX sourceLines tokens [] = .ok ps →
      piecesText sourceLines ps =
        trimLeftGo (getSourceFromSpan sourceLines
          ⟨⟨0, 0⟩, nextStop sourceLines tokens 0⟩) ++
        getSourceFromSpan sourceLines
          ⟨nextStop sourceLines tokens 0, fileEndPos sourceLines⟩ := by
  intro ps hok
  unfold GenerateMDX at hok
  rcases hres : mdxLoop sourceLines tokens [] (mdxFuel sourceLines tokens [])
      ⟨0, 0⟩ 0 0 false [] with e | ⟨ps0, flag⟩
  · rw [hres] at hok
    exact Except.noConfusion hok
  · rw [hres] at hok
    have hv0 : ValidPos sourceLines ⟨0, 0⟩ := by
      unfold ValidPos
      dsimp only
      refine ⟨le_refl _, ?_, le_refl _, ?_⟩
      · exact_mod_cast hlpos
      · exact Int.natCast_nonneg _
    have hI20 : ∀ j (hj : j < tokens.length), 0 ≤ j →
        Position.kle ⟨0, 0⟩ ((tokens[j]).Span.Start) := by
      intro j hj _
      have hV := (htokV _ (tokens.getElem_mem hj)).1
      have h1 := hV.1
      have h2 := hV.2.2.1
      unfold Position.kle
      dsimp only
      omega
    have hmain := mdxLoop_content sourceLines tokens hlen htokSep htokWf
      htokV (mdxFuel sourceLines tokens []) ⟨0, 0⟩ 0 false []
      (Nat.zero_le _) hv0 hI20 ps0 flag hres
    have hpair := Except.ok.inj hok
    rw [← hpair]
    have hW : piecesText sourceLines
        (if flag then [Piece.blockClose] else []) = [] := by
      cases flag <;> simp [piecesText, pieceText]
    rw [piecesText_append, hmain, hW]
    simp [piecesText]

/-- Witness for the conservation theorem: a one-line buffer " ab" with
one token covering "ab"; the emitted pieces carry exactly "ab", the
buffer minus the trimmed leading space. -/
theorem generateMDX_conservation_witness :
    GenerateMDX [[' ', 'a', 'b']] [mkTok 1 3 "t" false false "" []] [] =
      .ok [Piece.blockOpen,
        Piece.tokenRun (mkTok 1 3 "t" false false "" []),
        Piece.blockClose] ∧
    piecesText [[' ', 'a', 'b']]
        [Piece.blockOpen, Piece.tokenRun (mkTok 1 3 "t" false false "" []),
          Piece.blockClose] =
      trimLeftGo (getSourceFromSpan [[' ', 'a', 'b']]
        ⟨⟨0, 0⟩, nextStop [[' ', 'a', 'b']]
          [mkTok 1 3 "t" false false "" []] 0⟩) ++
      getSourceFromSpan [[' ', 'a', 'b']]
        ⟨nextStop [[' ', 'a', 'b']] [mkTok 1 3 "t" false false "" []] 0,
          fileEndPos [[' ', 'a', 'b']]⟩ :=
  ⟨by decide, generateMDX_conservation [[' ', 'a', 'b']]
    [mkTok 1 3 "t" false false "" []] (by decide) (by decide) (by decide)
    (by decide) (by decide) _ (by decide)⟩

end Gocire